import Mathlib

/-!
Verification development for the package-registry backend
(`src/backend/apiPackage.ts`, `src/backend/prismaCalls.ts`).

The TypeScript source is shallowly embedded below.  Pure string
manipulation (`getMaxVersion`, `parseVersion`'s token logic,
`parseGitHubUrl`) is translated character by character; the calls into
the third-party `semver` library (`semver.toComparators`,
`semver.minVersion`) are modelled from that library's source for the
range fragment this repository exercises (simple comparators `=`, `<`,
`<=`, `>`, `>=`, bare versions, caret and tilde shorthands, `*`, the
empty range, `||` disjunctions, and `-0` pre-release suffixes — the
only pre-release form the repository's normalized ranges produce).
Stateful handlers (`uploadPackage`, `getPackages`, the Prisma calls)
are embedded as explicit state-passing functions; `process.exit`,
thrown exceptions and query latency are made explicit in the types.
-/

namespace Pkg

/-! ### Decimal digit strings -/

/-- The character for a single decimal digit value. -/
def digitChar (n : Nat) : Char := Char.ofNat (48 + n)

/-- Numeric value of a digit character. -/
def digitVal (c : Char) : Nat := c.toNat - 48

/-- Decimal digits of a natural number, most significant first
(accumulator form, fuel-structural so that the kernel can evaluate it;
any fuel at least `n` is enough since the argument is divided by ten
at every step). -/
def natDigitsAux (fuel n : Nat) (acc : List Char) : List Char :=
  match fuel with
  | 0 => digitChar n :: acc
  | fuel + 1 =>
    if n < 10 then digitChar n :: acc
    else natDigitsAux fuel (n / 10) (digitChar (n % 10) :: acc)

/-- Decimal representation of a natural number as characters
(the rendering JavaScript uses for semver components). -/
def natStr (n : Nat) : List Char := natDigitsAux n n []

/-- Value of a digit string (most significant first). -/
def digitsVal (l : List Char) : Nat := l.foldl (fun a c => 10 * a + digitVal c) 0

/-! ### The `/\d+\.\d+\.\d+/g` scanner of `getMaxVersion` -/

/-- Attempt to match the regular expression `\d+\.\d+\.\d+` anchored at
the head of the character list: three maximal nonempty digit runs
separated by dots.  Returns the matched characters and the remainder.
Greedy `\d+` followed by a literal dot cannot backtrack usefully
(every character of the run is a digit), so maximal runs are faithful
to the JavaScript engine. -/
def matchVer (l : List Char) : Option (List Char × List Char) :=
  match l.takeWhile Char.isDigit, l.dropWhile Char.isDigit with
  | [], _ => none
  | d1, '.' :: r1 =>
    match r1.takeWhile Char.isDigit, r1.dropWhile Char.isDigit with
    | [], _ => none
    | d2, '.' :: r2 =>
      match r2.takeWhile Char.isDigit, r2.dropWhile Char.isDigit with
      | [], _ => none
      | d3, r3 => some (d1 ++ '.' :: (d2 ++ '.' :: d3), r3)
    | _, _ => none
  | _, _ => none

/-- Global scan for `\d+\.\d+\.\d+`: leftmost matches, continuing after
each match, advancing one character after a failed attempt — the
semantics of `str.match(/\d+\.\d+\.\d+/g)`.  The fuel argument is the
length of the scanned list, which suffices because every step consumes
at least one character. -/
def scanVersionsAux (fuel : Nat) (l : List Char) : List (List Char) :=
  match fuel, l with
  | 0, _ => []
  | _ + 1, [] => []
  | fuel + 1, c :: cs =>
    match matchVer (c :: cs) with
    | some (m, rest) => m :: scanVersionsAux fuel rest
    | none => scanVersionsAux fuel cs

/-- All matches of `\d+\.\d+\.\d+` in the list, in order. -/
def scanVersions (l : List Char) : List (List Char) := scanVersionsAux l.length l

/-! ### The global replacement of `-0` by the empty string in `getMaxVersion` -/

/-- Single left-to-right pass removing every non-overlapping occurrence
of the two-character substring `-0`, exactly as
`String.prototype.replace` with a global regex does. -/
def stripDash0 : List Char → List Char
  | [] => []
  | [c] => [c]
  | c :: d :: rest =>
    if c = '-' ∧ d = '0' then stripDash0 rest
    else c :: stripDash0 (d :: rest)

/-! ### `split(/\s+/)`, `split('||')`, `trim` -/

/-- JavaScript `str.split(/\s+/)` restricted to space characters: the
fields between maximal runs of spaces, keeping a leading or trailing
empty field (as the JavaScript splitter does) but producing no interior
empty fields. -/
def splitWsAux (fuel : Nat) (l : List Char) : List (List Char) :=
  match fuel with
  | 0 => []
  | fuel + 1 =>
    let tok := l.takeWhile (fun c => c ≠ ' ')
    let rest := l.dropWhile (fun c => c ≠ ' ')
    match rest with
    | [] => [tok]
    | _ :: tail => tok :: splitWsAux fuel (tail.dropWhile (fun c => c = ' '))

/-- `splitWsAux` with enough fuel: every recursive step consumes the
current token, one space and a (possibly empty) space run, so
`l.length + 1` steps always suffice. -/
def splitWsJS (l : List Char) : List (List Char) := splitWsAux (l.length + 1) l

/-- JavaScript `str.split('||')`: fields between non-overlapping
occurrences of the two-character separator, scanned left to right. -/
def splitOnBars : List Char → List (List Char)
  | [] => [[]]
  | [c] => [[c]]
  | c :: d :: rest =>
    if c = '|' ∧ d = '|' then [] :: splitOnBars rest
    else
      match splitOnBars (d :: rest) with
      | [] => [[c]]
      | s :: ss => (c :: s) :: ss

/-- `str.trim()` restricted to space characters. -/
def trimSpaces (l : List Char) : List Char :=
  ((l.dropWhile (fun c => c = ' ')).reverse.dropWhile (fun c => c = ' ')).reverse

/-- `p` is a prefix of `l` — JavaScript `startsWith`. -/
def listStartsWith (l p : List Char) : Bool := p.isPrefixOf l

/-- `pat` occurs as a contiguous substring of `l` — JavaScript
`includes`, and the Prisma `contains` string filter. -/
def containsSub (l pat : List Char) : Bool :=
  match l with
  | [] => pat.isPrefixOf ([] : List Char)
  | _ :: rest => pat.isPrefixOf l || containsSub rest pat

/-! ### Model of the `semver` library: versions and comparators

The repository calls `semver.toComparators` and `semver.minVersion`.
Both are modelled from the library's source (`classes/range.js`,
`ranges/min-version.js`) for the syntax fragment listed in the header.
Pre-release identifiers are modelled as lists of numeric identifiers;
the parser accepts only the `-0` suffix (the single pre-release form
appearing in this repository's normalized ranges), while the
`minVersion` bump for a strict `>` bound may internally extend a
pre-release list by a further `0`, as the library does. -/

/-- A parsed semantic version: numeric `major.minor.patch` plus an
optional pre-release identifier list (`[]` meaning "no pre-release"). -/
structure SemVersion where
  major : Nat
  minor : Nat
  patch : Nat
  pre : List Nat
deriving DecidableEq, Repr

/-- Comparator operators after `semver` normalization: `=` is rendered
as the empty operator, exactly as `Comparator` in the library does. -/
inductive CompOp where
  | eq
  | lt
  | le
  | gt
  | ge
deriving DecidableEq, Repr

/-- One normalized comparator: either the "any version" comparator
(value rendered as the empty string, produced by an empty range or
`*`), or an operator applied to a concrete version. -/
inductive Comparator where
  | any
  | cmp (op : CompOp) (v : SemVersion)
deriving DecidableEq, Repr

/-- Lexicographic comparison of pre-release identifier lists: a proper
prefix has lower precedence, identifiers compare numerically. -/
def cmpPre : List Nat → List Nat → Ordering
  | [], [] => .eq
  | [], _ :: _ => .lt
  | _ :: _, [] => .gt
  | a :: as, b :: bs =>
    match compare a b with
    | .eq => cmpPre as bs
    | o => o

/-- Semantic-version precedence (the library's `compare`): the numeric
triple lexicographically, then pre-release, where a version without
pre-release has higher precedence than one with. -/
def verCompare (x y : SemVersion) : Ordering :=
  match compare x.major y.major with
  | .eq =>
    match compare x.minor y.minor with
    | .eq =>
      match compare x.patch y.patch with
      | .eq =>
        match x.pre, y.pre with
        | [], [] => .eq
        | [], _ :: _ => .gt
        | _ :: _, [] => .lt
        | p, q => cmpPre p q
      | o => o
    | o => o
  | o => o

def verLt (x y : SemVersion) : Bool := verCompare x y = Ordering.lt

def verGt (x y : SemVersion) : Bool := verCompare x y = Ordering.gt

def verEq (x y : SemVersion) : Bool := verCompare x y = Ordering.eq

/-- One comparator test (`Comparator.prototype.test`): plain precedence
comparison against the comparator's version; the "any" comparator
accepts everything. -/
def compSatisfies (v : SemVersion) (c : Comparator) : Bool :=
  match c with
  | .any => true
  | .cmp .eq w => verEq v w
  | .cmp .lt w => verLt v w
  | .cmp .le w => !verGt v w
  | .cmp .gt w => verGt v w
  | .cmp .ge w => !verLt v w

/-- Comparator-set test (the library's `testSet` without
`includePrerelease`): every comparator must accept the version, and a
version carrying a pre-release is only accepted if some comparator
mentions a pre-release on the same numeric triple. -/
def setSatisfies (v : SemVersion) (cs : List Comparator) : Bool :=
  cs.all (compSatisfies v) &&
    (v.pre.isEmpty ||
      cs.any (fun c =>
        match c with
        | .any => false
        | .cmp _ w =>
          !w.pre.isEmpty && v.major = w.major && v.minor = w.minor && v.patch = w.patch))

/-- Range test: some comparator set accepts the version. -/
def rangeSatisfies (v : SemVersion) (sets : List (List Comparator)) : Bool :=
  sets.any (setSatisfies v)

/-- The candidate bump for a strict `>` comparator inside the library's
`minVersion`: increment the patch when there is no pre-release,
otherwise append a `0` pre-release identifier. -/
def bumpGt (w : SemVersion) : SemVersion :=
  if w.pre.isEmpty then { w with patch := w.patch + 1 }
  else { w with pre := w.pre ++ [0] }

/-- Per-set lower-bound candidate of the library's `minVersion`: the
largest version among `>`-bumped, `>=` and bare comparator versions
(upper bounds and the "any" comparator contribute nothing). -/
def setMinLower (cs : List Comparator) : Option SemVersion :=
  cs.foldl
    (fun sm c =>
      match c with
      | .any => sm
      | .cmp .lt _ => sm
      | .cmp .le _ => sm
      | .cmp .gt w =>
        let w' := bumpGt w
        match sm with
        | none => some w'
        | some m => if verGt w' m then some w' else sm
      | .cmp .ge w =>
        match sm with
        | none => some w
        | some m => if verGt w m then some w else sm
      | .cmp .eq w =>
        match sm with
        | none => some w
        | some m => if verGt w m then some w else sm)
    none

/-- Model of `semver.minVersion`: try `0.0.0`, then `0.0.0-0`, then the
smallest per-set lower-bound candidate, returning it only if it
actually satisfies the range. -/
def minVersionSets (sets : List (List Comparator)) : Option SemVersion :=
  if rangeSatisfies ⟨0, 0, 0, []⟩ sets then some ⟨0, 0, 0, []⟩
  else if rangeSatisfies ⟨0, 0, 0, [0]⟩ sets then some ⟨0, 0, 0, [0]⟩
  else
    match sets.foldl
      (fun acc cs =>
        match setMinLower cs with
        | none => acc
        | some m =>
          match acc with
          | none => some m
          | some a => if verGt a m then some m else acc)
      none with
    | none => none
    | some m => if rangeSatisfies m sets then some m else none

/-! ### Rendering comparators back to a string (`semver.toComparators`
followed by the joins in `parseVersion`) -/

/-- Characters of a comparator operator as the library renders it
(`=` becomes the empty operator). -/
def opChars : CompOp → List Char
  | .eq => []
  | .lt => ['<']
  | .le => ['<', '=']
  | .gt => ['>']
  | .ge => ['>', '=']

/-- Characters of the numeric `major.minor.patch` triple. -/
def tripleChars (a b c : Nat) : List Char :=
  natStr a ++ '.' :: (natStr b ++ '.' :: natStr c)

/-- Characters of a pre-release suffix: empty for no pre-release,
otherwise a dash followed by dot-separated numeric identifiers. -/
def preChars : List Nat → List Char
  | [] => []
  | p :: ps => '-' :: (natStr p ++ ps.flatMap (fun q => '.' :: natStr q))

/-- Characters of a rendered version (`SemVer.prototype.version`). -/
def verChars (v : SemVersion) : List Char :=
  tripleChars v.major v.minor v.patch ++ preChars v.pre

/-- Rendered version string. -/
def verStr (v : SemVersion) : String := (verChars v).asString

/-- The `value` of a comparator as the library stores it. -/
def compChars : Comparator → List Char
  | .any => []
  | .cmp op v => opChars op ++ verChars v

/-- One comparator set joined with single spaces
(`comparatorSet.join(' ')` in `parseVersion`). -/
def renderSet (cs : List Comparator) : List Char :=
  List.intercalate [' '] (cs.map compChars)

/-- All sets joined with ` || ` (`.join(' || ')` in `parseVersion`):
this is the `validRange` string. -/
def renderSets (sets : List (List Comparator)) : List Char :=
  List.intercalate [' ', '|', '|', ' '] (sets.map renderSet)

/-! ### Model of the `semver` range parser (string to comparator sets) -/

/-- Parse a maximal digit run as a numeric identifier, rejecting a
leading zero on a multi-digit run (strict semver grammar). -/
def parseNumRun (l : List Char) : Option (Nat × List Char) :=
  match l.takeWhile Char.isDigit, l.dropWhile Char.isDigit with
  | [], _ => none
  | c :: tl, rest =>
    if c = '0' ∧ tl ≠ [] then none
    else some (digitsVal (c :: tl), rest)

/-- Parse `major.minor.patch` with an optional `-0` pre-release suffix,
consuming the whole token. -/
def parseVer (l : List Char) : Option SemVersion :=
  match parseNumRun l with
  | some (a, '.' :: r1) =>
    match parseNumRun r1 with
    | some (b, '.' :: r2) =>
      match parseNumRun r2 with
      | some (c, r3) =>
        match r3 with
        | [] => some ⟨a, b, c, []⟩
        | ['-', '0'] => some ⟨a, b, c, [0]⟩
        | _ => none
      | none => none
    | _ => none
  | _ => none

/-- Caret expansion (`replaceCaret`): the upper bound is the next
incompatible version with a `-0` pre-release marker, as the modern
library emits. -/
def caretComps (v : SemVersion) : List Comparator :=
  if v.major > 0 then
    [.cmp .ge v, .cmp .lt ⟨v.major + 1, 0, 0, [0]⟩]
  else if v.minor > 0 then
    [.cmp .ge v, .cmp .lt ⟨0, v.minor + 1, 0, [0]⟩]
  else
    [.cmp .ge v, .cmp .lt ⟨0, 0, v.patch + 1, [0]⟩]

/-- Tilde expansion (`replaceTilde`): up to the next minor version,
with the `-0` marker on the upper bound. -/
def tildeComps (v : SemVersion) : List Comparator :=
  [.cmp .ge v, .cmp .lt ⟨v.major, v.minor + 1, 0, [0]⟩]

/-- Parse one whitespace-delimited range token into its comparator
list.  A bare `*` is handled at the set level. -/
def parseToken (t : List Char) : Option (List Comparator) :=
  match t with
  | [] => none
  | c :: rest =>
    if c = '>' then
      match rest with
      | '=' :: r2 => (parseVer r2).map (fun v => [.cmp .ge v])
      | _ => (parseVer rest).map (fun v => [.cmp .gt v])
    else if c = '<' then
      match rest with
      | '=' :: r2 => (parseVer r2).map (fun v => [.cmp .le v])
      | _ => (parseVer rest).map (fun v => [.cmp .lt v])
    else if c = '=' then (parseVer rest).map (fun v => [.cmp .eq v])
    else if c = '^' then (parseVer rest).map caretComps
    else if c = '~' then (parseVer rest).map tildeComps
    else (parseVer (c :: rest)).map (fun v => [.cmp .eq v])

/-- Parse and concatenate a list of tokens. -/
def parseTokens : List (List Char) → Option (List Comparator)
  | [] => some []
  | t :: ts =>
    match parseToken t, parseTokens ts with
    | some cs, some rest => some (cs ++ rest)
    | _, _ => none

/-- Interpret the whitespace-split tokens of one `||`-delimited piece:
no tokens or a lone `*` is the "any" comparator. -/
def parseSetTokens (tokens : List (List Char)) : Option (List Comparator) :=
  if tokens = [] then some [.any]
  else if tokens = [['*']] then some [.any]
  else parseTokens tokens

/-- Parse one `||`-delimited piece into a comparator set. -/
def parseSet (piece : List Char) : Option (List Comparator) :=
  parseSetTokens ((splitWsJS (trimSpaces piece)).filter (fun t => t ≠ []))

/-- Parse every `||`-delimited piece. -/
def parseSets : List (List Char) → Option (List (List Comparator))
  | [] => some []
  | p :: ps =>
    match parseSet p, parseSets ps with
    | some cs, some rest => some (cs :: rest)
    | _, _ => none

/-- Model of `new Range(...)`/`semver.toComparators` on the supported
fragment: `none` models the `TypeError` the library throws on a range
it cannot parse. -/
def parseRange (s : String) : Option (List (List Comparator)) :=
  parseSets (splitOnBars s.toList)

/-! ### `getMaxVersion` and `parseVersion` (`src/backend/apiPackage.ts`) -/

/-- Outcome of a call in the embedded semantics: a returned value, a
thrown exception (caught by the caller's `try`), or process
termination via `process.exit`. -/
inductive Outcome (α : Type) where
  | ok (a : α)
  | thrown
  | exited (code : Nat)
deriving DecidableEq, Repr

/-- The result shape of `parseVersion`. -/
structure VersionRange where
  min : String
  max : String
  minInclusive : Bool
  maxInclusive : Bool
deriving DecidableEq, Repr

/-- `getMaxVersion` (apiPackage.ts lines 46-55): strip every `-0`,
collect all `\d+\.\d+\.\d+` matches, return the last one; when there is
none, log and `process.exit(1)`. -/
def getMaxVersion (versionRange : List Char) : Outcome (List Char) :=
  match (scanVersions (stripDash0 versionRange)).getLast? with
  | some v => .ok v
  | none => .exited 1

/-- `parseVersion` (apiPackage.ts lines 58-81).  `semver.toComparators`
is `parseRange`; `validRange` is the rendered join; `semver.minVersion`
re-parses `validRange`, which round-trips to the same comparator sets,
so it is applied to them directly.  A `null`/`undefined` minimum exits
the process, as does `getMaxVersion` finding no numeric token; a
single-token `validRange` (no space) is returned with both bounds
inclusive, otherwise inclusivity comes from the first two
whitespace-split tokens. -/
def parseVersion (version : String) : Outcome VersionRange :=
  match parseRange version with
  | none => .thrown
  | some sets =>
    let validRange := renderSets sets
    match minVersionSets sets with
    | none => .exited 1
    | some minv =>
      match getMaxVersion validRange with
      | .exited c => .exited c
      | .thrown => .thrown
      | .ok maxv =>
        if !validRange.any (fun c => c = ' ') then
          .ok ⟨verStr minv, maxv.asString, true, true⟩
        else
          let tokens := splitWsJS validRange
          .ok ⟨verStr minv, maxv.asString,
            listStartsWith (tokens.getD 0 []) ['>', '='],
            listStartsWith (tokens.getD 1 []) ['<', '=']⟩

/-- The semantic-version ordering the specification uses for the
`min <= max` invariant: compare the leading `major.minor.patch`
numeric triples of the two rendered version strings. -/
def tripleOfChars (l : List Char) : Option (Nat × Nat × Nat) :=
  match parseNumRun l with
  | some (a, '.' :: r1) =>
    match parseNumRun r1 with
    | some (b, '.' :: r2) =>
      match parseNumRun r2 with
      | some (c, _) => some (a, b, c)
      | none => none
    | _ => none
  | _ => none

/-- `min <= max` under the specification's ordering: numeric triple
comparison of the rendered strings (strings without a leading triple
compare as `0.0.0`). -/
def versionStringLe (x y : String) : Bool :=
  let tx := (tripleOfChars x.toList).getD (0, 0, 0)
  let ty := (tripleOfChars y.toList).getD (0, 0, 0)
  tx.1 < ty.1 ∨ (tx.1 = ty.1 ∧ (tx.2.1 < ty.2.1 ∨ (tx.2.1 = ty.2.1 ∧ tx.2.2 ≤ ty.2.2)))

/-! ### `prismaCalls.ts`: the database layer

Rows are modelled as records, the database as lists of rows, and the
Prisma string comparisons (`gte`/`gt`/`lte`/`lt` on the `version`
column, `contains` on `name`) as lexicographic string comparison and
substring containment.  A query's latency is passed explicitly in
milliseconds; a plain `await` ignores it, while a race against a
`setTimeout` rejection does not. -/

/-- Strict lexicographic order on character lists — the string
comparison a relational database applies to the `version` column. -/
def charListLt : List Char → List Char → Bool
  | [], [] => false
  | [], _ :: _ => true
  | _ :: _, [] => false
  | a :: as, b :: bs => a < b || (a = b && charListLt as bs)

/-- Lexicographic strict order on strings. -/
def strLt (x y : String) : Bool := charListLt x.toList y.toList

/-- Lexicographic order on strings. -/
def strLe (x y : String) : Bool := !strLt y x

/-- A `packageMetadata` row. -/
structure PackageMetadataRow where
  name : String
  version : String
  id : String
deriving DecidableEq, Repr

/-- The `whereCondition` object built by `getMetaDataByQuery`
(prismaCalls.ts lines 18-27).  The computed key `minInclusive ? gte :
gt` is applied to `maxVersion` and `maxInclusive ? lte : lt` to
`minVersion`, exactly as in the source; the `name` entry is present
(possibly holding `undefined`) whenever `queryName !== '*'`.
`nameFilter = none` models an absent entry, `some none` an entry whose
value is `undefined`. -/
structure WhereCondition where
  lowerIncl : Bool
  lowerBound : String
  upperIncl : Bool
  upperBound : String
  nameFilter : Option (Option String)
deriving DecidableEq, Repr

/-- Build the `whereCondition` from the arguments of
`getMetaDataByQuery`. -/
def buildWhereCondition (queryName : Option String) (minVersion maxVersion : String)
    (minInclusive maxInclusive : Bool) : WhereCondition :=
  { lowerIncl := minInclusive
    lowerBound := maxVersion
    upperIncl := maxInclusive
    upperBound := minVersion
    nameFilter := if queryName ≠ some "*" then some queryName else none }

/-- Prisma evaluation of the condition on one row: string comparison on
`version`, equality on `name` when a defined name filter is present
(an `undefined` filter value imposes no constraint). -/
def rowMatches (w : WhereCondition) (row : PackageMetadataRow) : Bool :=
  (if w.lowerIncl then strLe w.lowerBound row.version else strLt w.lowerBound row.version) &&
  (if w.upperIncl then strLe row.version w.upperBound else strLt row.version w.upperBound) &&
  (match w.nameFilter with
   | none => true
   | some none => true
   | some (some n) => row.name = n)

/-- `getMetaDataByQuery` (prismaCalls.ts lines 9-40): clamp the page to
at least 1, skip `(page-1)*10` records, take 10.  There is no timeout
race: the result is the awaited query result whatever the latency. -/
def getMetaDataByQuery (db : List PackageMetadataRow) (queryName : Option String)
    (minVersion maxVersion : String) (minInclusive maxInclusive : Bool)
    (offset : Nat) (elapsedMs : Nat) : Option (List PackageMetadataRow) :=
  let _ := elapsedMs
  let page := max 1 offset
  let pageSize := 10
  let recordsToSkip := (page - 1) * pageSize
  let w := buildWhereCondition queryName minVersion maxVersion minInclusive maxInclusive
  some (((db.filter (rowMatches w)).drop recordsToSkip).take pageSize)

/-- `getMetaDataByRegEx` (prismaCalls.ts lines 119-142): the `findMany`
with a `contains` filter raced against a `setTimeout` rejection at
5000 ms; when the query's latency reaches the timeout the rejection
wins, the `catch` logs and returns `null`. -/
def getMetaDataByRegEx (db : List PackageMetadataRow) (regEx : String)
    (elapsedMs : Nat) : Option (List PackageMetadataRow) :=
  if elapsedMs < 5000 then
    some (db.filter (fun row => containsSub row.name.toList regEx.toList))
  else none

/-! ### `getPackages` (apiPackage.ts lines 84-115) -/

/-- The request shape `getPackages` reads: the optional `offset` query
parameter (the source's `parseInt` of the query string is abstracted
to an optional number), the capitalized `Name` and `Version` body
fields it validates, and the lowercase `name` body field it actually
uses. -/
structure PackagesRequest where
  offset : Option Nat
  body_Name : Option String
  body_name : Option String
  body_Version : Option String
deriving DecidableEq, Repr

/-- Observable outcome of the handler: an HTTP response with rows, an
HTTP error status, or process termination propagated from
`parseVersion`. -/
inductive HandlerResult where
  | rows (status : Nat) (rs : List PackageMetadataRow)
  | err (status : Nat)
  | exited (code : Nat)
deriving DecidableEq, Repr

/-- The post-validation tail of `getPackages`: parse the version range
(a throw is caught and mapped to 500, a `process.exit` ends the
process), then run the range query with the forwarded `queryName`. -/
def getPackagesQuery (db : List PackageMetadataRow) (queryName : Option String)
    (version : String) (offset : Nat) (elapsedMs : Nat) : HandlerResult :=
  match parseVersion version with
  | .thrown => .err 500
  | .exited c => .exited c
  | .ok r =>
    match getMetaDataByQuery db queryName r.min r.max r.minInclusive r.maxInclusive
        offset elapsedMs with
    | none => .err 500
    | some rows => .rows 200 rows

/-- `getPackages`: default the offset to 1, reject a missing `Name` or
`Version` with 400, then continue with `queryName := req.body.name`
(the lowercase field). -/
def getPackages (db : List PackageMetadataRow) (req : PackagesRequest)
    (elapsedMs : Nat) : HandlerResult :=
  let offset := req.offset.getD 1
  match req.body_Name with
  | none => .err 400
  | some _ =>
    match req.body_Version with
    | none => .err 400
    | some version => getPackagesQuery db req.body_name version offset elapsedMs

/-! ### `parseGitHubUrl` (apiPackage.ts lines 318-332)

The regular expression is
`github\.com[/:]([^/]+)\/([^/.]+)(\.git)?` with leftmost-match
semantics: at the first index where the literal `github.com` is
followed by `/` or `:`, capture a maximal nonempty run without `/`,
require a `/`, then capture a maximal nonempty run without `/` or `.`
(greedy runs followed by a required literal cannot backtrack
usefully).  The optional `.git` group constrains nothing. -/

/-- Replace the first occurrence of `pat` in `l` by nothing —
JavaScript `replace` with a plain string pattern
(`match[2].replace('.git', '')`). -/
def replaceOnce (l pat : List Char) : List Char :=
  match l with
  | [] => []
  | c :: cs =>
    if pat.isPrefixOf (c :: cs) then (c :: cs).drop pat.length
    else c :: replaceOnce cs pat

/-- Anchored attempt of the GitHub-URL pattern at the head of `l`. -/
def tryMatchGithub (l : List Char) : Option (List Char × List Char) :=
  if ("github.com".toList).isPrefixOf l then
    match l.drop 10 with
    | sep :: rest =>
      if sep = '/' ∨ sep = ':' then
        match rest.takeWhile (fun c => c ≠ '/'), rest.dropWhile (fun c => c ≠ '/') with
        | [], _ => none
        | owner, '/' :: rest2 =>
          match rest2.takeWhile (fun c => c ≠ '/' ∧ c ≠ '.') with
          | [] => none
          | repo => some (owner, repo)
        | _, _ => none
      else none
    | [] => none
  else none

/-- Leftmost-match scan for the pattern. -/
def scanGithub : List Char → Option (List Char × List Char)
  | [] => none
  | c :: cs =>
    match tryMatchGithub (c :: cs) with
    | some r => some r
    | none => scanGithub cs

/-- The parsed owner/repo pair. -/
structure GithubInfo where
  owner : String
  repo : String
deriving DecidableEq, Repr

/-- `parseGitHubUrl`: `null` (here `none`) when the pattern does not
match; otherwise the two captures, with a first `.git` occurrence
removed from the repo capture (which cannot contain a dot). -/
def parseGitHubUrl (url : String) : Option GithubInfo :=
  match scanGithub url.toList with
  | some (owner, repo) =>
    some ⟨owner.asString, (replaceOnce repo ".git".toList).asString⟩
  | none => none

/-! ### The upload pipeline (`uploadPackage` and its helpers)

Archive entries carry an abstract parsed manifest: JSON text is
modelled as a record with a parse-validity flag, since the claims
concern control flow and persistence effects, not JSON syntax. -/

/-- The manifest content of one archive entry. -/
structure FileContent where
  parsesOk : Bool
  pkgName : String
  pkgVersion : String
  repository : Option String
deriving DecidableEq, Repr

/-- One entry of the uploaded zip archive. -/
structure ZipEntry where
  entryName : String
  content : FileContent
deriving DecidableEq, Repr

/-- Does `name` match the fallback pattern `^.*filename$` — any prefix
followed by the filename, with the regex-dot of the filename matching
any character? -/
def suffixPatternMatch (name filename : List Char) : Bool :=
  decide (∃ k ≤ name.length,
    (name.drop k).length = filename.length ∧
      ((name.drop k).zip filename).all (fun p => p.1 = p.2 ∨ p.2 = '.'))

/-- `extractFileFromZip` (apiPackage.ts lines 175-194): exact entry
name first, then the first entry matching the suffix pattern, else a
thrown error. -/
def extractFileFromZip (zip : List ZipEntry) (filename : String) :
    Except String FileContent :=
  match zip.find? (fun e => e.entryName = filename) with
  | some e => .ok e.content
  | none =>
    match zip.filter (fun e => suffixPatternMatch e.entryName.toList filename.toList) with
    | [] => .error (filename ++ " not found inside the zip.")
    | f :: _ => .ok f.content

/-- The `PackageMetadata` value assembled from a manifest. -/
structure ApiPackageMetadata where
  Name : String
  Version : String
  ID : String
deriving DecidableEq, Repr

/-- `extractMetadataFromZip` (apiPackage.ts lines 243-257): extract
`package.json`, parse it (a parse failure throws), and pair the name
and version with a freshly generated UUID (passed in explicitly). -/
def extractMetadataFromZip (zip : List ZipEntry) (uuid : String) :
    Except String ApiPackageMetadata :=
  match extractFileFromZip zip "package.json" with
  | .error e => .error e
  | .ok content =>
    if content.parsesOk then .ok ⟨content.pkgName, content.pkgVersion, uuid⟩
    else .error "Failed to parse package.json"

/-- `getGithubUrlFromZip` (apiPackage.ts lines 197-239): reject an
empty buffer, extract and parse `package.json`, require a repository
URL string, expand a `github:` shorthand, and strip a trailing
`.git`. -/
def getGithubUrlFromZip (zip : List ZipEntry) : Except String String :=
  if zip = [] then .error "Empty or invalid zip buffer provided"
  else
    match extractFileFromZip zip "package.json" with
    | .error e => .error e
    | .ok content =>
      if !content.parsesOk then .error "Failed to parse package.json"
      else
        match content.repository with
        | none => .error "GitHub repository URL not found in package.json"
        | some url =>
          let url1 :=
            if listStartsWith url.toList "github:".toList then
              "https://github.com/" ++ (url.toList.drop 7).asString
            else url
          let url2 :=
            if ".git".toList.isSuffixOf url1.toList then
              (url1.toList.take (url1.toList.length - 4)).asString
            else url1
          .ok url2

/-- A `packageHistoryEntry` row. -/
structure HistoryRow where
  metadataId : String
  userId : Nat
  action : String
deriving DecidableEq, Repr

/-- A `packageRating` row (the stored scores are abstracted to a single
payload value). -/
structure RatingRow where
  metadataId : String
  netScore : Nat
deriving DecidableEq, Repr

/-- The persistent state the upload pipeline writes to: the three
database tables and the S3 object keys. -/
structure DbState where
  metadataRows : List PackageMetadataRow
  historyRows : List HistoryRow
  ratingRows : List RatingRow
  userIds : List Nat
  s3Keys : List String
deriving DecidableEq, Repr

/-- The environment of one `uploadPackage` call: the uploaded file (if
any), the generated UUID, and the outcomes of the external
collaborators — `none` for `netScore` models a throw inside
`NET_SCORE.calculate`, `storeOk = false` a throw inside
`storeMetricsInDatabase`, `s3Ok = false` a throw inside
`uploadToS3`. -/
structure UploadEnv where
  file : Option (List ZipEntry × String)
  uuid : String
  netScore : Option Nat
  storeOk : Bool
  s3Ok : Bool
deriving DecidableEq, Repr

/-- `checkPackageHistoryExists` (prismaCalls.ts lines 110-117). -/
def checkPackageHistoryExists (s : DbState) (metadataId : String) : Bool :=
  (s.historyRows.filter (fun r => r.metadataId = metadataId)).length > 0

/-- `uploadMetadataToDatabase` (prismaCalls.ts lines 62-75). -/
def uploadMetadataToDatabase (s : DbState) (m : ApiPackageMetadata) : DbState :=
  { s with metadataRows := s.metadataRows ++ [⟨m.Name, m.Version, m.ID⟩] }

/-- `createPackageHistoryEntry` (prismaCalls.ts lines 77-108): check
that the metadata row and the user exist, then append the history
row; a failed check throws. -/
def createPackageHistoryEntry (s : DbState) (metadataId : String) (userId : Nat)
    (action : String) : Except String DbState :=
  if !(s.metadataRows.any (fun r => r.id = metadataId)) then
    .error "No metadata found"
  else if !(s.userIds.contains userId) then
    .error "No user found"
  else
    .ok { s with historyRows := s.historyRows ++ [⟨metadataId, userId, action⟩] }

/-- `calculateAndStoreGithubMetrics` (apiPackage.ts lines 286-315): the
whole body is wrapped in `try`/`catch`, so a failed score calculation
or a failed rating insert is logged and swallowed — the state gains a
rating row only when both succeed, and the function never throws. -/
def calculateAndStoreGithubMetrics (env : UploadEnv) (s : DbState)
    (metadataId : String) : DbState :=
  match env.netScore with
  | none => s
  | some score =>
    if env.storeOk then
      { s with ratingRows := s.ratingRows ++ [⟨metadataId, score⟩] }
    else s

/-- The response `uploadPackage` produces. -/
inductive UploadResponse where
  | badRequest (msg : String)
  | conflict
  | serverError
  | jsonOk (meta : ApiPackageMetadata)
deriving DecidableEq, Repr

/-- `uploadPackage` (apiPackage.ts lines 335-381), as a state
transformer: extraction and URL resolution happen before any write;
the duplicate check precedes the metadata insert; the history insert
follows it; the metrics step never throws; the S3 upload follows the
metrics step; any throw is caught and answered with 500 after the
writes already made. -/
def uploadPackage (env : UploadEnv) (s : DbState) : DbState × UploadResponse :=
  match env.file with
  | none => (s, .badRequest "No file uploaded")
  | some (zip, originalname) =>
    match extractMetadataFromZip zip env.uuid with
    | .error _ => (s, .serverError)
    | .ok metadata =>
      match getGithubUrlFromZip zip with
      | .error _ => (s, .serverError)
      | .ok url =>
        match parseGitHubUrl url with
        | none => (s, .badRequest "Invalid GitHub repository URL.")
        | some _ =>
          if checkPackageHistoryExists s metadata.ID then (s, .conflict)
          else
            let s1 := uploadMetadataToDatabase s metadata
            match createPackageHistoryEntry s1 metadata.ID 1 "CREATE" with
            | .error _ => (s1, .serverError)
            | .ok s2 =>
              let s3state := calculateAndStoreGithubMetrics env s2 metadata.ID
              if env.s3Ok then
                ({ s3state with s3Keys := s3state.s3Keys ++ [originalname] },
                  .jsonOk metadata)
              else (s3state, .serverError)

/-! ### Support definitions for the statements and proofs -/

/-- Every character of the list is a decimal digit. -/
def allDigits (l : List Char) : Prop := ∀ c ∈ l, c.isDigit = true

/-- The list is empty or starts with a non-digit — the condition under
which a digit run ending just before `l` is maximal. -/
def headNotDigit : List Char → Prop
  | [] => True
  | c :: _ => c.isDigit = false

/-- A comparator produced by the range parser for a non-trivial set: a
concrete comparator whose pre-release is absent or exactly `-0`. -/
def comparatorWf : Comparator → Prop
  | .any => False
  | .cmp _ w => w.pre = [] ∨ w.pre = [0]

/-- The last comparator of the set is a strict or inclusive upper
bound. -/
def lastIsUpperBound (cs : List Comparator) : Prop :=
  match cs.getLast? with
  | some (.cmp .lt _) => True
  | some (.cmp .le _) => True
  | _ => False

/-- The numeric-triple characters a comparator contributes to the
stripped canonical string. -/
def compTripleChars : Comparator → List Char
  | .any => []
  | .cmp _ v => tripleChars v.major v.minor v.patch

/-- A bare exact-version expression `major.minor.patch`. -/
def bareVersionString (a b c : Nat) : String := (tripleChars a b c).asString

/-- Sample archive with a well-formed manifest, for concrete runs. -/
def sampleZip : List ZipEntry :=
  [⟨"package.json", ⟨true, "widget", "1.2.3", some "https://github.com/acme/widget.git"⟩⟩]

/-- Sample archive with no manifest entry at all. -/
def sampleZipNoManifest : List ZipEntry := [⟨"readme.md", ⟨true, "x", "y", none⟩⟩]

/-- Sample initial persistent state: empty tables, one known user. -/
def sampleState : DbState := ⟨[], [], [], [1], []⟩

/-! ## Lemmas about decimal digit strings -/

theorem digitChar_isDigit (n : Nat) (h : n < 10) : (digitChar n).isDigit = true := by
  interval_cases n <;> decide

theorem digitVal_digitChar (n : Nat) (h : n < 10) : digitVal (digitChar n) = n := by
  interval_cases n <;> decide

theorem digitChar_ne_zeroChar (n : Nat) (h1 : 1 ≤ n) (h2 : n < 10) : digitChar n ≠ '0' := by
  interval_cases n <;> decide

theorem ne_of_isDigit {c d : Char} (hc : c.isDigit = true) (hd : d.isDigit = false) :
    c ≠ d := by
  intro e
  rw [e, hd] at hc
  exact Bool.false_ne_true hc

theorem natDigitsAux_fuel (fuel n : Nat) (h : n ≤ fuel) (acc : List Char) :
    natDigitsAux fuel n acc = natDigitsAux n n acc := by
  induction fuel using Nat.strong_induction_on generalizing n acc with
  | _ fuel ih =>
    match fuel with
    | 0 =>
      have : n = 0 := Nat.le_zero.mp h
      subst this
      rfl
    | fuel + 1 =>
      by_cases h10 : n < 10
      · simp only [natDigitsAux, if_pos h10]
        match n, h10 with
        | 0, _ => rfl
        | m + 1, h10 => simp only [natDigitsAux, if_pos h10]
      · push_neg at h10
        obtain ⟨m, rfl⟩ : ∃ m, n = m + 1 := ⟨n - 1, by omega⟩
        simp only [natDigitsAux, if_neg (by omega : ¬ m + 1 < 10)]
        rw [ih fuel (Nat.lt_succ_self fuel) ((m + 1) / 10) (by omega),
          ih m (by omega) ((m + 1) / 10) (by omega)]

theorem natStr_lt10 (n : Nat) (h : n < 10) : natStr n = [digitChar n] := by
  match n with
  | 0 => rfl
  | m + 1 => simp only [natStr, natDigitsAux, if_pos h]

theorem natDigitsAux_acc (n : Nat) (acc : List Char) :
    natDigitsAux n n acc = natStr n ++ acc := by
  induction n using Nat.strong_induction_on generalizing acc with
  | _ n ih =>
    by_cases h10 : n < 10
    · rw [natStr_lt10 n h10]
      match n, h10 with
      | 0, _ => rfl
      | m + 1, h10 =>
        simp only [natDigitsAux, if_pos h10]
        rfl
    · push_neg at h10
      have hq : n / 10 < n := Nat.div_lt_self (by omega) (by omega)
      match n, h10 with
      | m + 1, h10 =>
        have step : ∀ a : List Char,
            natDigitsAux (m + 1) (m + 1) a =
              natStr ((m + 1) / 10) ++ digitChar ((m + 1) % 10) :: a := by
          intro a
          simp only [natDigitsAux, if_neg (by omega : ¬ m + 1 < 10)]
          rw [natDigitsAux_fuel m ((m + 1) / 10) (by omega),
            ih ((m + 1) / 10) (by omega)]
        rw [step acc]
        show _ = natDigitsAux (m + 1) (m + 1) [] ++ acc
        rw [step []]
        simp

theorem natStr_ge10 (n : Nat) (h : 10 ≤ n) :
    natStr n = natStr (n / 10) ++ [digitChar (n % 10)] := by
  match n, h with
  | m + 1, h =>
    show natDigitsAux (m + 1) (m + 1) [] = _
    simp only [natDigitsAux, if_neg (by omega : ¬ m + 1 < 10)]
    rw [natDigitsAux_fuel m ((m + 1) / 10) (by omega), natDigitsAux_acc]

theorem natStr_ne_nil (n : Nat) : natStr n ≠ [] := by
  by_cases h : n < 10
  · rw [natStr_lt10 n h]
    simp
  · rw [natStr_ge10 n (by omega)]
    simp

theorem natStr_allDigits (n : Nat) : allDigits (natStr n) := by
  induction n using Nat.strong_induction_on with
  | _ n ih =>
    by_cases h : n < 10
    · rw [natStr_lt10 n h]
      intro c hc
      simp at hc
      subst hc
      exact digitChar_isDigit n h
    · rw [natStr_ge10 n (by omega)]
      intro c hc
      rcases List.mem_append.mp hc with h1 | h2
      · exact ih (n / 10) (Nat.div_lt_self (by omega) (by omega)) c h1
      · simp at h2
        subst h2
        exact digitChar_isDigit _ (Nat.mod_lt _ (by omega))

theorem natStr_head_ne_zero (n : Nat) (hn : n ≠ 0) (c : Char) (tl : List Char)
    (h : natStr n = c :: tl) : c ≠ '0' := by
  induction n using Nat.strong_induction_on generalizing c tl with
  | _ n ih =>
    by_cases h10 : n < 10
    · rw [natStr_lt10 n h10] at h
      injection h with h1 _
      subst h1
      exact digitChar_ne_zeroChar n (by omega) h10
    · rw [natStr_ge10 n (by omega)] at h
      obtain ⟨c2, tl2, hq⟩ : ∃ c2 tl2, natStr (n / 10) = c2 :: tl2 := by
        rcases hd : natStr (n / 10) with _ | ⟨c2, tl2⟩
        · exact absurd hd (natStr_ne_nil _)
        · exact ⟨c2, tl2, rfl⟩
      rw [hq] at h
      injection h with h1 _
      subst h1
      exact ih (n / 10) (Nat.div_lt_self (by omega) (by omega)) (by omega) c2 tl2 hq

theorem digitsVal_append_single (l : List Char) (c : Char) :
    digitsVal (l ++ [c]) = 10 * digitsVal l + digitVal c := by
  simp [digitsVal, List.foldl_append]

theorem digitsVal_natStr (n : Nat) : digitsVal (natStr n) = n := by
  induction n using Nat.strong_induction_on with
  | _ n ih =>
    by_cases h : n < 10
    · rw [natStr_lt10 n h]
      have h1 : digitsVal [digitChar n] = digitVal (digitChar n) := by
        simp [digitsVal]
      rw [h1]
      exact digitVal_digitChar n h
    · rw [natStr_ge10 n (by omega), digitsVal_append_single,
        ih (n / 10) (Nat.div_lt_self (by omega) (by omega)),
        digitVal_digitChar _ (Nat.mod_lt _ (by omega))]
      omega

/-! ## Lemmas about digit runs, the scanner and stripping -/

theorem takeWhile_all {p : Char → Bool} (l : List Char) (h : ∀ c ∈ l, p c = true) :
    l.takeWhile p = l ∧ l.dropWhile p = [] := by
  induction l with
  | nil => simp
  | cons c tl ih =>
    have hc : p c = true := h c (by simp)
    have := ih (fun x hx => h x (by simp [hx]))
    simp [List.takeWhile, List.dropWhile, hc, this.1, this.2]

theorem takeWhile_digits_append (D rest : List Char) (hD : allDigits D)
    (hrest : headNotDigit rest) :
    (D ++ rest).takeWhile Char.isDigit = D ∧ (D ++ rest).dropWhile Char.isDigit = rest := by
  induction D with
  | nil =>
    match rest, hrest with
    | [], _ => simp
    | c :: tl, hrest =>
      have hc : c.isDigit = false := hrest
      constructor
      · simp [List.takeWhile, hc]
      · simp [List.dropWhile, hc]
  | cons c tl ih =>
    have hc : c.isDigit = true := hD c (by simp)
    have := ih (fun x hx => hD x (by simp [hx]))
    simp [List.takeWhile, List.dropWhile, hc, this.1, this.2]

theorem parseNumRun_natStr (n : Nat) (rest : List Char) (h : headNotDigit rest) :
    parseNumRun (natStr n ++ rest) = some (n, rest) := by
  obtain ⟨htake, hdrop⟩ := takeWhile_digits_append (natStr n) rest (natStr_allDigits n) h
  obtain ⟨c, tl, hcons⟩ : ∃ c tl, natStr n = c :: tl := by
    rcases hd : natStr n with _ | ⟨c, tl⟩
    · exact absurd hd (natStr_ne_nil _)
    · exact ⟨c, tl, rfl⟩
  unfold parseNumRun
  rw [htake, hdrop, hcons]
  have hguard : ¬(c = '0' ∧ tl ≠ []) := by
    rintro ⟨rfl, htl⟩
    by_cases hz : n = 0
    · subst hz
      rw [show natStr 0 = ['0'] from rfl] at hcons
      injection hcons with _ h2
      exact htl h2.symm
    · exact natStr_head_ne_zero n hz '0' tl hcons rfl
  show (if c = '0' ∧ tl ≠ [] then (none : Option (Nat × List Char))
    else some (digitsVal (c :: tl), rest)) = some (n, rest)
  rw [if_neg hguard, ← hcons, digitsVal_natStr]

theorem natStr_cons (n : Nat) : ∃ x y, natStr n = x :: y := by
  rcases hd : natStr n with _ | ⟨x, y⟩
  · exact absurd hd (natStr_ne_nil _)
  · exact ⟨x, y, rfl⟩

theorem matchVer_triple (a b c : Nat) (rest : List Char) (h : headNotDigit rest) :
    matchVer (tripleChars a b c ++ rest) = some (tripleChars a b c, rest) := by
  have hl : tripleChars a b c ++ rest
      = natStr a ++ ('.' :: (natStr b ++ ('.' :: (natStr c ++ rest)))) := by
    simp [tripleChars]
  obtain ⟨h1t, h1d⟩ := takeWhile_digits_append (natStr a)
    ('.' :: (natStr b ++ ('.' :: (natStr c ++ rest)))) (natStr_allDigits a)
    (show ('.').isDigit = false by decide)
  obtain ⟨h2t, h2d⟩ := takeWhile_digits_append (natStr b)
    ('.' :: (natStr c ++ rest)) (natStr_allDigits b)
    (show ('.').isDigit = false by decide)
  obtain ⟨h3t, h3d⟩ := takeWhile_digits_append (natStr c) rest (natStr_allDigits c) h
  rw [hl]
  unfold matchVer
  rw [h1t, h1d]
  obtain ⟨ca, ta, hca⟩ := natStr_cons a
  rw [hca]
  show (match List.takeWhile Char.isDigit (natStr b ++ '.' :: (natStr c ++ rest)),
      List.dropWhile Char.isDigit (natStr b ++ '.' :: (natStr c ++ rest)) with
    | [], _ => none
    | d2, '.' :: r2 =>
      match List.takeWhile Char.isDigit r2, List.dropWhile Char.isDigit r2 with
      | [], _ => none
      | d3, r3 => some ((ca :: ta) ++ '.' :: (d2 ++ '.' :: d3), r3)
    | _, _ => none) = some (tripleChars a b c, rest)
  rw [h2t, h2d]
  obtain ⟨cb, tb, hcb⟩ := natStr_cons b
  rw [hcb]
  show (match List.takeWhile Char.isDigit (natStr c ++ rest),
      List.dropWhile Char.isDigit (natStr c ++ rest) with
    | [], _ => none
    | d3, r3 => some ((ca :: ta) ++ '.' :: ((cb :: tb) ++ '.' :: d3), r3))
    = some (tripleChars a b c, rest)
  rw [h3t, h3d]
  obtain ⟨cc, tc, hcc⟩ := natStr_cons c
  rw [hcc]
  show some ((ca :: ta) ++ '.' :: ((cb :: tb) ++ '.' :: (cc :: tc)), rest)
    = some (tripleChars a b c, rest)
  rw [← hca, ← hcb, ← hcc]
  simp [tripleChars]

theorem matchVer_not_digit (c : Char) (l : List Char) (hc : c.isDigit = false) :
    matchVer (c :: l) = none := by
  unfold matchVer
  rw [show (c :: l).takeWhile Char.isDigit = [] from by simp [List.takeWhile, hc]]
  split
  all_goals first
  | rfl
  | (exfalso; rename_i g; exact g rfl)

theorem matchVer_decomp (l m rest : List Char) (h : matchVer l = some (m, rest)) :
    m ++ rest = l ∧ m ≠ [] := by
  unfold matchVer at h
  split at h
  · exact Option.noConfusion h
  · split at h
    · exact Option.noConfusion h
    · split at h
      · exact Option.noConfusion h
      · injection h with h1
        injection h1 with hm hr
        subst hm
        subst hr
        rename_i a1 a2 r1 heq1 g1 b1 b2 r2 heq2 g2 c1 c2 g3
        refine ⟨?_, by simp⟩
        have e3 : List.takeWhile Char.isDigit r2 ++ List.dropWhile Char.isDigit r2 = r2 :=
          List.takeWhile_append_dropWhile _ _
        have e2 : List.takeWhile Char.isDigit r1 ++ List.dropWhile Char.isDigit r1 = r1 :=
          List.takeWhile_append_dropWhile _ _
        have e1 : List.takeWhile Char.isDigit l ++ List.dropWhile Char.isDigit l = l :=
          List.takeWhile_append_dropWhile _ _
        simp only [List.append_assoc, List.cons_append]
        rw [e3, ← heq2, e2, ← heq1, e1]
    · exact Option.noConfusion h
  · exact Option.noConfusion h

theorem scanVersions_nil : scanVersions [] = [] := rfl

theorem scanVersionsAux_fuel (fuel : Nat) (l : List Char) (h : l.length ≤ fuel) :
    scanVersionsAux fuel l = scanVersions l := by
  induction fuel using Nat.strong_induction_on generalizing l with
  | _ fuel ih =>
    match fuel with
    | 0 =>
      have : l = [] := List.eq_nil_of_length_eq_zero (by omega)
      subst this
      rfl
    | fuel + 1 =>
      match l with
      | [] => rfl
      | c :: cs =>
        have hcs : cs.length ≤ fuel := by
          simp at h
          omega
        rcases hm : matchVer (c :: cs) with _ | ⟨m, rest⟩
        · simp only [scanVersionsAux, hm]
          rw [ih fuel (Nat.lt_succ_self fuel) cs hcs]
          show _ = scanVersionsAux (c :: cs).length (c :: cs)
          rw [show (c :: cs).length = cs.length + 1 from by simp]
          simp only [scanVersionsAux, hm]
          rw [ih cs.length (by omega) cs (le_refl _)]
        · obtain ⟨hdec, hne⟩ := matchVer_decomp _ _ _ hm
          have hrest : rest.length ≤ cs.length := by
            have hlen := congrArg List.length hdec
            rcases m with _ | ⟨x, xs⟩
            · exact absurd rfl hne
            · simp at hlen
              omega
          simp only [scanVersionsAux, hm]
          rw [ih fuel (Nat.lt_succ_self fuel) rest (by omega)]
          show _ = scanVersionsAux (c :: cs).length (c :: cs)
          rw [show (c :: cs).length = cs.length + 1 from by simp]
          simp only [scanVersionsAux, hm]
          rw [ih cs.length (by omega) rest (by omega)]

theorem scanVersions_cons_none (c : Char) (cs : List Char)
    (h : matchVer (c :: cs) = none) : scanVersions (c :: cs) = scanVersions cs := by
  show scanVersionsAux (c :: cs).length (c :: cs) = _
  rw [show (c :: cs).length = cs.length + 1 from by simp]
  simp only [scanVersionsAux, h]
  exact scanVersionsAux_fuel cs.length cs (le_refl _)

theorem scanVersions_cons_some (l m rest : List Char)
    (h : matchVer l = some (m, rest)) : scanVersions l = m :: scanVersions rest := by
  obtain ⟨hdec, hne⟩ := matchVer_decomp _ _ _ h
  match l with
  | [] =>
    rw [show matchVer [] = none from rfl] at h
    exact Option.noConfusion h
  | c :: cs =>
    have hrest : rest.length ≤ cs.length := by
      have hlen := congrArg List.length hdec
      rcases m with _ | ⟨x, xs⟩
      · exact absurd rfl hne
      · simp at hlen
        omega
    show scanVersionsAux (c :: cs).length (c :: cs) = _
    rw [show (c :: cs).length = cs.length + 1 from by simp]
    simp only [scanVersionsAux, h]
    rw [scanVersionsAux_fuel cs.length rest hrest]

theorem scanVersions_sep (s l : List Char) (hs : ∀ c ∈ s, c.isDigit = false) :
    scanVersions (s ++ l) = scanVersions l := by
  induction s with
  | nil => simp
  | cons c tl ih =>
    rw [List.cons_append,
      scanVersions_cons_none c (tl ++ l) (matchVer_not_digit _ _ (hs c (by simp)))]
    exact ih (fun x hx => hs x (by simp [hx]))

theorem scanVersions_triple (a b c : Nat) (rest : List Char) (h : headNotDigit rest) :
    scanVersions (tripleChars a b c ++ rest) = tripleChars a b c :: scanVersions rest :=
  scanVersions_cons_some _ _ _ (matchVer_triple a b c rest h)

/-! ## Lemmas about `stripDash0` -/

theorem stripDash0_nil : stripDash0 [] = [] := rfl

theorem stripDash0_cons_ne (c : Char) (l : List Char) (hc : c ≠ '-') :
    stripDash0 (c :: l) = c :: stripDash0 l := by
  match l with
  | [] => rfl
  | d :: rest =>
    show (if c = '-' ∧ d = '0' then stripDash0 rest else c :: stripDash0 (d :: rest)) = _
    rw [if_neg (by tauto)]

theorem stripDash0_dash_zero (l : List Char) :
    stripDash0 ('-' :: '0' :: l) = stripDash0 l := by
  show (if ('-' : Char) = '-' ∧ ('0' : Char) = '0' then stripDash0 l
    else '-' :: stripDash0 ('0' :: l)) = stripDash0 l
  rw [if_pos ⟨rfl, rfl⟩]

theorem stripDash0_append_ne (D l : List Char) (hD : ∀ c ∈ D, c ≠ '-') :
    stripDash0 (D ++ l) = D ++ stripDash0 l := by
  induction D with
  | nil => simp
  | cons c tl ih =>
    rw [List.cons_append, stripDash0_cons_ne c _ (hD c (by simp)),
      ih (fun x hx => hD x (by simp [hx]))]
    rfl

theorem stripDash0_no_dash (l : List Char) (h : ∀ c ∈ l, c ≠ '-') :
    stripDash0 l = l := by
  have e := stripDash0_append_ne l [] h
  rw [stripDash0_nil] at e
  simpa using e

/-! ## Rendering facts and the scan of a stripped comparator set -/

theorem opChars_ne_dash (op : CompOp) : ∀ c ∈ opChars op, c ≠ '-' := by
  cases op <;> intro c hc <;> simp [opChars] at hc <;> first
  | (subst hc; decide)
  | (rcases hc with rfl | rfl <;> decide)

theorem opChars_not_digit (op : CompOp) : ∀ c ∈ opChars op, c.isDigit = false := by
  cases op <;> intro c hc <;> simp [opChars] at hc <;> first
  | (subst hc; decide)
  | (rcases hc with rfl | rfl <;> decide)

theorem tripleChars_ne_dash (a b c : Nat) : ∀ ch ∈ tripleChars a b c, ch ≠ '-' := by
  intro ch hch
  simp [tripleChars] at hch
  rcases hch with h | rfl | h | rfl | h
  · exact ne_of_isDigit (natStr_allDigits a ch h) (by decide)
  · decide
  · exact ne_of_isDigit (natStr_allDigits b ch h) (by decide)
  · decide
  · exact ne_of_isDigit (natStr_allDigits c ch h) (by decide)

theorem tripleChars_ne_space (a b c : Nat) : ∀ ch ∈ tripleChars a b c, ch ≠ ' ' := by
  intro ch hch
  simp [tripleChars] at hch
  rcases hch with h | rfl | h | rfl | h
  · exact ne_of_isDigit (natStr_allDigits a ch h) (by decide)
  · decide
  · exact ne_of_isDigit (natStr_allDigits b ch h) (by decide)
  · decide
  · exact ne_of_isDigit (natStr_allDigits c ch h) (by decide)

theorem tripleChars_ne_bar (a b c : Nat) : ∀ ch ∈ tripleChars a b c, ch ≠ '|' := by
  intro ch hch
  simp [tripleChars] at hch
  rcases hch with h | rfl | h | rfl | h
  · exact ne_of_isDigit (natStr_allDigits a ch h) (by decide)
  · decide
  · exact ne_of_isDigit (natStr_allDigits b ch h) (by decide)
  · decide
  · exact ne_of_isDigit (natStr_allDigits c ch h) (by decide)

theorem tripleChars_ne_nil (a b c : Nat) : tripleChars a b c ≠ [] := by
  intro h
  obtain ⟨x, y, hx⟩ := natStr_cons a
  rw [tripleChars, hx] at h
  simp at h

theorem strip_comp_append (op : CompOp) (v : SemVersion)
    (hpre : v.pre = [] ∨ v.pre = [0]) (rest : List Char) :
    stripDash0 (compChars (.cmp op v) ++ rest)
      = opChars op ++ (tripleChars v.major v.minor v.patch ++ stripDash0 rest) := by
  have hassoc : compChars (.cmp op v) ++ rest
      = opChars op ++ (tripleChars v.major v.minor v.patch ++ (preChars v.pre ++ rest)) := by
    simp [compChars, verChars]
  rw [hassoc, stripDash0_append_ne (opChars op) _ (opChars_ne_dash op),
    stripDash0_append_ne (tripleChars v.major v.minor v.patch) _ (tripleChars_ne_dash _ _ _)]
  rcases hpre with h | h
  · rw [h]
    rfl
  · rw [h]
    show _ ++ (_ ++ stripDash0 ('-' :: '0' :: rest)) = _
    rw [stripDash0_dash_zero]

theorem scan_op_triple (op : CompOp) (a b c : Nat) (rest : List Char)
    (h : headNotDigit rest) :
    scanVersions (opChars op ++ (tripleChars a b c ++ rest))
      = tripleChars a b c :: scanVersions rest := by
  rw [scanVersions_sep (opChars op) _ (opChars_not_digit op), scanVersions_triple a b c rest h]

theorem renderSet_cons_cons (c c2 : Comparator) (tl : List Comparator) :
    renderSet (c :: c2 :: tl) = compChars c ++ ' ' :: renderSet (c2 :: tl) := by
  show List.intercalate [' '] (compChars c :: compChars c2 :: tl.map compChars) = _
  rw [show List.intercalate [' '] (compChars c :: compChars c2 :: tl.map compChars)
    = compChars c ++ [' '] ++ List.intercalate [' '] (compChars c2 :: tl.map compChars) from by
      simp [List.intercalate, List.intersperse]]
  simp [renderSet]

theorem renderSet_single (c : Comparator) : renderSet [c] = compChars c := by
  simp [renderSet, List.intercalate]

theorem scanStripSet (cs : List Comparator) (h : ∀ c ∈ cs, comparatorWf c) :
    scanVersions (stripDash0 (renderSet cs)) = cs.map compTripleChars := by
  induction cs with
  | nil => simp [renderSet, List.intercalate, stripDash0_nil, scanVersions_nil]
  | cons c tl ih =>
    match c, h c (by simp) with
    | .cmp op v, _ =>
      have hpre : v.pre = [] ∨ v.pre = [0] := h (.cmp op v) (by simp)
      match tl with
      | [] =>
        rw [renderSet_single, show compChars (.cmp op v) = compChars (.cmp op v) ++ [] from
          by simp, strip_comp_append op v hpre [], stripDash0_nil,
          show tripleChars v.major v.minor v.patch ++ ([] : List Char)
            = tripleChars v.major v.minor v.patch ++ [] from rfl]
        rw [scan_op_triple op _ _ _ [] trivial]
        simp [compTripleChars, scanVersions_nil]
      | c2 :: tl2 =>
        rw [renderSet_cons_cons, strip_comp_append op v hpre _,
          stripDash0_cons_ne ' ' _ (by decide)]
        rw [scan_op_triple op _ _ _ _ (by exact rfl)]
        rw [scanVersions_cons_none ' ' _ (matchVer_not_digit _ _ (by decide))]
        rw [ih (fun x hx => h x (by simp [hx]))]
        simp [compTripleChars]

/-! ## Ordering and `minVersion` lemmas -/

theorem cmpPre_self (p : List Nat) : cmpPre p p = .eq := by
  induction p with
  | nil => rfl
  | cons a as ih =>
    show (match compare a a with | .eq => cmpPre as as | o => o) = .eq
    rw [Nat.compare_eq_eq.mpr rfl, ih]

theorem verCompare_self (v : SemVersion) : verCompare v v = .eq := by
  unfold verCompare
  rw [Nat.compare_eq_eq.mpr rfl, Nat.compare_eq_eq.mpr rfl, Nat.compare_eq_eq.mpr rfl]
  rcases hp : v.pre with _ | ⟨a, as⟩
  · rfl
  · show cmpPre (a :: as) (a :: as) = .eq
    exact cmpPre_self _

theorem verEq_self (v : SemVersion) : verEq v v = true := by
  simp [verEq, verCompare_self]

theorem cmpPre_eq_imp (p q : List Nat) (h : cmpPre p q = .eq) : p = q := by
  induction p generalizing q with
  | nil =>
    rcases q with _ | ⟨b, bs⟩
    · rfl
    · exact absurd (show Ordering.lt = Ordering.eq from h) (by decide)
  | cons a as ih =>
    rcases q with _ | ⟨b, bs⟩
    · exact absurd (show Ordering.gt = Ordering.eq from h) (by decide)
    · have h2 : (match compare a b with
        | Ordering.eq => cmpPre as bs
        | o => o) = .eq := h
      rcases hab : compare a b with _ | _ | _ <;> rw [hab] at h2
      · exact absurd (show Ordering.lt = Ordering.eq from h2) (by decide)
      · rw [Nat.compare_eq_eq.mp hab, ih bs h2]
      · exact absurd (show Ordering.gt = Ordering.eq from h2) (by decide)

theorem verCompare_eq_imp (x y : SemVersion) (h : verCompare x y = .eq) : x = y := by
  obtain ⟨xa, xb, xc, xp⟩ := x
  obtain ⟨ya, yb, yc, yp⟩ := y
  unfold verCompare at h
  simp only at h
  rcases hmaj : compare xa ya with _ | _ | _ <;> rw [hmaj] at h
  case lt => exact absurd h (by simp)
  case gt => exact absurd h (by simp)
  case eq =>
    rcases hmin : compare xb yb with _ | _ | _ <;> rw [hmin] at h
    case lt => exact absurd h (by simp)
    case gt => exact absurd h (by simp)
    case eq =>
      rcases hpat : compare xc yc with _ | _ | _ <;> rw [hpat] at h
      case lt => exact absurd h (by simp)
      case gt => exact absurd h (by simp)
      case eq =>
        have ea := Nat.compare_eq_eq.mp hmaj
        have eb := Nat.compare_eq_eq.mp hmin
        have ec := Nat.compare_eq_eq.mp hpat
        subst ea
        subst eb
        subst ec
        simp only [SemVersion.mk.injEq, true_and]
        cases xp <;> cases yp
        · rfl
        · exact absurd (show Ordering.gt = Ordering.eq from h) (by decide)
        · exact absurd (show Ordering.lt = Ordering.eq from h) (by decide)
        · rename_i a as b bs
          exact cmpPre_eq_imp (a :: as) (b :: bs) h

theorem verEq_imp (x y : SemVersion) (h : verEq x y = true) : x = y := by
  apply verCompare_eq_imp
  simpa [verEq] using h

/-- The numeric-triple order the specification's invariant uses. -/
theorem verCompare_ne_gt_triple (x y : SemVersion) (h : verCompare x y ≠ .gt) :
    x.major < y.major ∨ (x.major = y.major ∧
      (x.minor < y.minor ∨ (x.minor = y.minor ∧ x.patch ≤ y.patch))) := by
  unfold verCompare at h
  rcases hmaj : compare x.major y.major with _ | _ | _ <;> rw [hmaj] at h
  case lt => exact Or.inl ((Nat.compare_eq_lt).mp hmaj)
  case gt => exact absurd rfl h
  case eq =>
    refine Or.inr ⟨Nat.compare_eq_eq.mp hmaj, ?_⟩
    rcases hmin : compare x.minor y.minor with _ | _ | _ <;> rw [hmin] at h
    case lt => exact Or.inl ((Nat.compare_eq_lt).mp hmin)
    case gt => exact absurd rfl h
    case eq =>
      refine Or.inr ⟨Nat.compare_eq_eq.mp hmin, ?_⟩
      rcases hpat : compare x.patch y.patch with _ | _ | _ <;> rw [hpat] at h
      case lt => exact Nat.le_of_lt ((Nat.compare_eq_lt).mp hpat)
      case gt => exact absurd rfl h
      case eq => exact Nat.le_of_eq (Nat.compare_eq_eq.mp hpat)

theorem minVersionSets_satisfies (sets : List (List Comparator)) (m : SemVersion)
    (h : minVersionSets sets = some m) : rangeSatisfies m sets = true := by
  unfold minVersionSets at h
  split_ifs at h with h1 h2
  · injection h with h
    subst h
    exact h1
  · injection h with h
    subst h
    exact h2
  · revert h
    split
    · intro h
      cases h
    · rename_i m2 hm2
      split_ifs with h3
      · intro h
        injection h with h
        subst h
        exact h3
      · intro h
        cases h

/-! ## Well-formedness of parsed comparator sets -/

theorem parseVer_wf (l : List Char) (v : SemVersion) (h : parseVer l = some v) :
    v.pre = [] ∨ v.pre = [0] := by
  unfold parseVer at h
  split at h
  · split at h
    · split at h
      · split at h
        · injection h with h
          subst h
          exact Or.inl rfl
        · injection h with h
          subst h
          exact Or.inr rfl
        · exact Option.noConfusion h
      · exact Option.noConfusion h
    · exact Option.noConfusion h
  · exact Option.noConfusion h

theorem parseToken_wf (t : List Char) (cs : List Comparator)
    (h : parseToken t = some cs) : ∀ c ∈ cs, comparatorWf c := by
  unfold parseToken at h
  split at h
  · exact Option.noConfusion h
  · rename_i c0 rest
    split_ifs at h with h1 h2 h3 h4 h5
    · revert h
      split
      · rename_i r2
        rcases hv : parseVer r2 with _ | v
        · intro h
          exact Option.noConfusion h
        · intro h
          simp [hv] at h
          subst h
          intro c hc
          simp at hc
          subst hc
          exact parseVer_wf _ _ hv
      · rcases hv : parseVer rest with _ | v
        · intro h
          exact Option.noConfusion h
        · intro h
          simp [hv] at h
          subst h
          intro c hc
          simp at hc
          subst hc
          exact parseVer_wf _ _ hv
    · revert h
      split
      · rename_i r2
        rcases hv : parseVer r2 with _ | v
        · intro h
          exact Option.noConfusion h
        · intro h
          simp [hv] at h
          subst h
          intro c hc
          simp at hc
          subst hc
          exact parseVer_wf _ _ hv
      · rcases hv : parseVer rest with _ | v
        · intro h
          exact Option.noConfusion h
        · intro h
          simp [hv] at h
          subst h
          intro c hc
          simp at hc
          subst hc
          exact parseVer_wf _ _ hv
    · rcases hv : parseVer rest with _ | v
      · rw [hv] at h
        exact Option.noConfusion h
      · rw [hv] at h
        simp at h
        subst h
        intro c hc
        simp at hc
        subst hc
        exact parseVer_wf _ _ hv
    · rcases hv : parseVer rest with _ | v
      · rw [hv] at h
        exact Option.noConfusion h
      · rw [hv] at h
        simp at h
        subst h
        intro c hc
        have hwf := parseVer_wf _ _ hv
        unfold caretComps at hc
        split_ifs at hc <;> simp at hc <;>
          rcases hc with rfl | rfl <;> first
          | exact hwf
          | exact Or.inr rfl
    · rcases hv : parseVer rest with _ | v
      · rw [hv] at h
        exact Option.noConfusion h
      · rw [hv] at h
        simp at h
        subst h
        intro c hc
        have hwf := parseVer_wf _ _ hv
        unfold tildeComps at hc
        simp at hc
        rcases hc with rfl | rfl
        · exact hwf
        · exact Or.inr rfl
    · rcases hv : parseVer (c0 :: rest) with _ | v
      · rw [hv] at h
        exact Option.noConfusion h
      · rw [hv] at h
        simp at h
        subst h
        intro c hc
        simp at hc
        subst hc
        exact parseVer_wf _ _ hv

theorem parseTokens_wf (ts : List (List Char)) (cs : List Comparator)
    (h : parseTokens ts = some cs) : ∀ c ∈ cs, comparatorWf c := by
  induction ts generalizing cs with
  | nil =>
    injection h with h
    subst h
    intro c hc
    simp at hc
  | cons t ts ih =>
    unfold parseTokens at h
    revert h
    split
    · rename_i cs1 rest ht hrest
      intro h
      injection h with h
      subst h
      intro c hc
      rcases List.mem_append.mp hc with h1 | h2
      · exact parseToken_wf t cs1 ht c h1
      · exact ih rest hrest c h2
    · intro h
      exact Option.noConfusion h

theorem parseSetTokens_wf (ts : List (List Char)) (cs : List Comparator)
    (h : parseSetTokens ts = some cs) :
    cs = [.any] ∨ ∀ c ∈ cs, comparatorWf c := by
  unfold parseSetTokens at h
  split_ifs at h with h1 h2
  · injection h with h
    exact Or.inl h.symm
  · injection h with h
    exact Or.inl h.symm
  · exact Or.inr (parseTokens_wf _ _ h)

theorem parseSet_wf (p : List Char) (cs : List Comparator) (h : parseSet p = some cs) :
    cs = [.any] ∨ ∀ c ∈ cs, comparatorWf c :=
  parseSetTokens_wf _ _ h

theorem parseRange_wf (s : String) (sets : List (List Comparator))
    (h : parseRange s = some sets) :
    ∀ cs ∈ sets, cs = [.any] ∨ ∀ c ∈ cs, comparatorWf c := by
  unfold parseRange at h
  generalize hp : splitOnBars s.toList = pieces at h
  clear hp
  induction pieces generalizing sets with
  | nil =>
    injection h with h
    subst h
    intro cs hcs
    simp at hcs
  | cons p ps ih =>
    unfold parseSets at h
    revert h
    split
    · rename_i cs1 rest hset hsets
      intro h
      injection h with h
      subst h
      intro cs hcs
      rcases hcs with _ | hcs
      · exact parseSet_wf p cs1 hset
      · exact ih rest hsets cs (by assumption)
    · intro h
      exact Option.noConfusion h

/-! ## Claim C1 -/

/-- C1: the claim states that the range predicate built by
`getMetaDataByQuery` applies the lower-bound comparator (`gte`/`gt`) to
the parsed `minVersion` and the upper-bound comparator (`lte`/`lt`) to
`maxVersion`.  The code applies them to the opposite bounds: with
`minVersion = "1.0.0"`, `maxVersion = "2.0.0"`, both bounds inclusive,
a stored version `"1.5.0"` lies inside the claimed range yet fails the
built condition, and the query returns no rows; the built condition
literally carries `maxVersion` as its lower bound and `minVersion` as
its upper bound. -/
theorem c1_swapped_range_bounds :
    rowMatches (buildWhereCondition (some "pkg") "1.0.0" "2.0.0" true true)
      ⟨"pkg", "1.5.0", "id"⟩ = false
    ∧ (strLe "1.0.0" "1.5.0" = true ∧ strLe "1.5.0" "2.0.0" = true)
    ∧ getMetaDataByQuery [⟨"pkg", "1.5.0", "id"⟩] (some "pkg") "1.0.0" "2.0.0"
        true true 1 0 = some []
    ∧ (buildWhereCondition (some "pkg") "1.0.0" "2.0.0" true true).lowerBound = "2.0.0"
    ∧ (buildWhereCondition (some "pkg") "1.0.0" "2.0.0" true true).upperBound = "1.0.0" := by
  refine ⟨by decide, ⟨by decide, by decide⟩, by decide, rfl, rfl⟩

/-! ## Claim C4 -/

/-- C4: when extraction from the uploaded archive fails (in particular
when no entry matches the manifest name), `uploadPackage` answers with
the caught-error response and leaves the persistent state untouched:
no metadata row, no history row, no rating row, no stored object. -/
theorem c4_no_writes_on_extraction_failure (env : UploadEnv) (s : DbState)
    (zip : List ZipEntry) (oname : String) (msg : String)
    (hfile : env.file = some (zip, oname))
    (hext : extractMetadataFromZip zip env.uuid = .error msg) :
    uploadPackage env s = (s, .serverError) := by
  simp only [uploadPackage, hfile, hext]

/-- C4 witness: a concrete archive with no `package.json` entry. -/
theorem c4_no_writes_witness :
    uploadPackage ⟨some (sampleZipNoManifest, "w.zip"), "id1", some 5, true, true⟩
      sampleState = (sampleState, .serverError) :=
  c4_no_writes_on_extraction_failure _ _ sampleZipNoManifest "w.zip"
    "package.json not found inside the zip." rfl rfl

/-! ## Claim C3 -/

/-- C3: when metadata extraction, URL resolution and the duplicate
check succeed, and the metrics step then fails (either the score
calculation throws or the rating insert throws), `uploadPackage` keeps
the already-persisted metadata and history rows, creates no rating
row, and still answers with the success response carrying the
metadata. -/
theorem c3_partial_success_on_metrics_failure (env : UploadEnv) (s : DbState)
    (zip : List ZipEntry) (oname : String) (m : ApiPackageMetadata) (url : String)
    (gh : GithubInfo)
    (hfile : env.file = some (zip, oname))
    (hext : extractMetadataFromZip zip env.uuid = .ok m)
    (hurl : getGithubUrlFromZip zip = .ok url)
    (hgh : parseGitHubUrl url = some gh)
    (hdup : checkPackageHistoryExists s m.ID = false)
    (huser : s.userIds.contains 1 = true)
    (hmetrics : env.netScore = none ∨ env.storeOk = false)
    (hs3 : env.s3Ok = true) :
    uploadPackage env s =
      ({ metadataRows := s.metadataRows ++ [⟨m.Name, m.Version, m.ID⟩],
         historyRows := s.historyRows ++ [⟨m.ID, 1, "CREATE"⟩],
         ratingRows := s.ratingRows,
         userIds := s.userIds,
         s3Keys := s.s3Keys ++ [oname] }, .jsonOk m) := by
  simp only [uploadPackage, hfile, hext, hurl, hgh, hdup]
  have hhist : createPackageHistoryEntry (uploadMetadataToDatabase s m) m.ID 1 "CREATE"
      = .ok { uploadMetadataToDatabase s m with
          historyRows := s.historyRows ++ [⟨m.ID, 1, "CREATE"⟩] } := by
    unfold createPackageHistoryEntry uploadMetadataToDatabase
    rw [if_neg (by simp), if_neg (by simp [List.mem_of_elem_eq_true huser])]
  have hmet : calculateAndStoreGithubMetrics env
      { uploadMetadataToDatabase s m with
          historyRows := s.historyRows ++ [⟨m.ID, 1, "CREATE"⟩] } m.ID
      = { uploadMetadataToDatabase s m with
          historyRows := s.historyRows ++ [⟨m.ID, 1, "CREATE"⟩] } := by
    unfold calculateAndStoreGithubMetrics
    rcases hmetrics with hnet | hstore
    · rw [hnet]
    · rcases hnet : env.netScore with _ | score
      · rfl
      · rw [hstore]
        simp
  simp only [Bool.false_eq_true, if_false, hhist, hmet, hs3, if_true]
  unfold uploadMetadataToDatabase
  rfl

/-- C3 witness: a concrete upload where the score calculation throws
(`netScore = none`): metadata and history rows are committed, no
rating row exists, and the response is the success payload. -/
theorem c3_partial_success_witness :
    uploadPackage ⟨some (sampleZip, "w.zip"), "id1", none, true, true⟩ sampleState =
      ({ metadataRows := [⟨"widget", "1.2.3", "id1"⟩],
         historyRows := [⟨"id1", 1, "CREATE"⟩],
         ratingRows := [],
         userIds := [1],
         s3Keys := ["w.zip"] }, .jsonOk ⟨"widget", "1.2.3", "id1"⟩) :=
  c3_partial_success_on_metrics_failure
    ⟨some (sampleZip, "w.zip"), "id1", none, true, true⟩ sampleState
    sampleZip "w.zip" ⟨"widget", "1.2.3", "id1"⟩ "https://github.com/acme/widget"
    ⟨"acme", "widget"⟩ rfl rfl rfl (by decide) (by decide)
    (by decide) (Or.inl rfl) rfl

/-! ## Claim C8 -/

theorem scanGithub_none (l : List Char)
    (h : containsSub l ("github.com".toList) = false) : scanGithub l = none := by
  induction l with
  | nil => rfl
  | cons c cs ih =>
    unfold containsSub at h
    rw [Bool.or_eq_false_iff] at h
    unfold scanGithub
    rw [show tryMatchGithub (c :: cs) = none from by
      unfold tryMatchGithub
      rw [h.1]
      simp]
    exact ih h.2

/-- C8: `parseGitHubUrl` extracts `{owner := "acme", repo := "widget"}`
from the dotted `.git` GitHub URL, and returns `none` (not an
exception) for every URL in which the literal `github.com` does not
occur at all. -/
theorem c8_parse_github_url :
    parseGitHubUrl "https://github.com/acme/widget.git" = some ⟨"acme", "widget"⟩
    ∧ ∀ s : String, containsSub s.toList ("github.com".toList) = false →
        parseGitHubUrl s = none := by
  refine ⟨by decide, ?_⟩
  intro s h
  unfold parseGitHubUrl
  rw [scanGithub_none s.toList h]

/-- C8 witness: the non-GitHub URL from the specification is rejected
with a no-match result. -/
theorem c8_parse_github_url_witness :
    parseGitHubUrl "https://example.com/acme/widget" = none :=
  c8_parse_github_url.2 "https://example.com/acme/widget" (by decide)

/-! ## Claim C9 -/

/-- C9 counterexample: the version-range query `getMetaDataByQuery` is
not subject to any timeout — with a latency of 6000 ms (beyond the
claimed 5-second limit) it still returns the matching rows rather than
a null result. -/
theorem c9_counterexample_range_query_has_no_timeout :
    getMetaDataByQuery [⟨"n", "1.2.3", "i"⟩] (some "n") "1.2.3" "1.2.3" true true 1 6000
      = some [⟨"n", "1.2.3", "i"⟩] := by
  decide

/-- C9 amended: the hard 5000 ms timeout lives in the regular-expression
name lookup `getMetaDataByRegEx`, which returns `null` whenever the
query latency reaches 5 seconds, while `getMetaDataByQuery`'s result is
independent of latency. -/
theorem c9_timeout_on_regex_query :
    (∀ (db : List PackageMetadataRow) (regEx : String) (el : Nat), 5000 ≤ el →
      getMetaDataByRegEx db regEx el = none)
    ∧ ∀ (db : List PackageMetadataRow) (q : Option String) (minV maxV : String)
        (mi ma : Bool) (off el : Nat),
        getMetaDataByQuery db q minV maxV mi ma off el
          = getMetaDataByQuery db q minV maxV mi ma off 0 := by
  constructor
  · intro db regEx el hel
    unfold getMetaDataByRegEx
    rw [if_neg (by omega)]
  · intro db q minV maxV mi ma off el
    rfl

/-- C9 witness: at exactly 5000 ms the regex query returns `null`. -/
theorem c9_timeout_witness :
    getMetaDataByRegEx [⟨"hello", "1.0.0", "i"⟩] "ell" 5000 = none :=
  c9_timeout_on_regex_query.1 [⟨"hello", "1.0.0", "i"⟩] "ell" 5000 (by omega)

/-! ## Claim C10 -/

/-- C10: a request whose body carries the capitalized `Name` but no
lowercase `name` passes both validation checks of `getPackages` and
reaches the range query with `queryName = none` (the lowercase field),
so the `!== '*'` test succeeds and the where-condition receives an
`undefined` name entry; consequently a stored row whose name differs
from the supplied `Name` is still returned. -/
theorem c10_name_field_mismatch :
    (∀ (db : List PackageMetadataRow) (off : Option Nat) (nm ver : String) (el : Nat),
      getPackages db ⟨off, some nm, none, some ver⟩ el
        = getPackagesQuery db none ver (off.getD 1) el)
    ∧ (∀ (minV maxV : String) (mi ma : Bool),
        (buildWhereCondition none minV maxV mi ma).nameFilter = some none)
    ∧ getPackages [⟨"other", "1.2.3", "i"⟩] ⟨none, some "pkgA", none, some "1.2.3"⟩ 0
        = .rows 200 [⟨"other", "1.2.3", "i"⟩] := by
  refine ⟨fun db off nm ver el => rfl, fun minV maxV mi ma => ?_, by decide⟩
  unfold buildWhereCondition
  rw [if_pos (by simp)]

/-! ## Claims C2, C6, C7: counterexamples and concrete parts -/

/-- C2 counterexample: on the empty range expression, `parseVersion`
does not return a recoverable error to the caller — `getMaxVersion`
finds no numeric token in the normalized range and terminates the
process with exit code 1. -/
theorem c2_counterexample_empty_input : parseVersion "" = .exited 1 := by decide

/-- C6 counterexample: stripping of the `-0` suffix happens only inside
`getMaxVersion`, so the two expressions do not resolve identically —
the minimum bound retains the `-0` suffix. -/
theorem c6_counterexample_pre0_not_identical :
    parseVersion ">=1.0.0-0 <=2.0.0" ≠ parseVersion ">=1.0.0 <=2.0.0" := by decide

/-- C6 amended: the two resolutions agree on the maximum bound and on
both inclusivity flags (both derive from the token shapes, and the
`-0` is stripped before max-bound extraction), but the minimum bound
of the `-0` range is `"1.0.0-0"` where the plain range yields
`"1.0.0"`. -/
theorem c6_pre0_fields :
    parseVersion ">=1.0.0-0 <=2.0.0" = .ok ⟨"1.0.0-0", "2.0.0", true, true⟩
    ∧ parseVersion ">=1.0.0 <=2.0.0" = .ok ⟨"1.0.0", "2.0.0", true, true⟩ := by
  constructor <;> decide

/-- C7 counterexample: `parseVersion ">1.2.3"` returns
`min = "1.2.4"`, `max = "1.2.3"` (the minimum is the bumped strict
bound, the maximum is the last scanned token), so `min <= max` fails
under the numeric-triple ordering. -/
theorem c7_counterexample_min_gt_max :
    parseVersion ">1.2.3" = .ok ⟨"1.2.4", "1.2.3", true, true⟩
    ∧ versionStringLe "1.2.4" "1.2.3" = false := by
  constructor <;> decide

/-! ## Lemmas for the universal range-parsing claims -/

theorem intercalate_cons_cons {α : Type} (s a b : List α) (t : List (List α)) :
    List.intercalate s (a :: b :: t) = a ++ s ++ List.intercalate s (b :: t) := by
  simp [List.intercalate, List.intersperse]

theorem intercalate_single {α : Type} (s a : List α) :
    List.intercalate s [a] = a := by
  simp [List.intercalate]

theorem dropWhile_all_ne {p : Char → Bool} (l : List Char)
    (h : ∀ c ∈ l, p c = false) : l.dropWhile p = l := by
  induction l with
  | nil => rfl
  | cons c tl ih =>
    rw [List.dropWhile_cons_of_neg (by simp [h c (by simp)])]

theorem trimSpaces_no_space (l : List Char) (h : ∀ c ∈ l, c ≠ ' ') :
    trimSpaces l = l := by
  unfold trimSpaces
  rw [dropWhile_all_ne l (by intro c hc; simp [h c hc]),
    dropWhile_all_ne l.reverse (by intro c hc; simp [h c (List.mem_reverse.mp hc)]),
    List.reverse_reverse]

theorem splitWs_no_space (l : List Char) (h : ∀ c ∈ l, c ≠ ' ') :
    splitWsJS l = [l] := by
  obtain ⟨htake, hdrop⟩ := takeWhile_all (p := fun c => decide (c ≠ ' ')) l
    (by intro c hc; simp [h c hc])
  unfold splitWsJS splitWsAux
  rw [htake, hdrop]

theorem splitOnBars_no_bar (l : List Char) (h : ∀ c ∈ l, c ≠ '|') :
    splitOnBars l = [l] := by
  induction l with
  | nil => rfl
  | cons c tl ih =>
    match tl with
    | [] => rfl
    | d :: rest =>
      show (if c = '|' ∧ d = '|' then ([] : List Char) :: splitOnBars rest
        else match splitOnBars (d :: rest) with
          | [] => [[c]]
          | s :: ss => (c :: s) :: ss) = [c :: d :: rest]
      rw [if_neg (by have := h c (by simp); tauto),
        ih (fun x hx => h x (by simp at hx ⊢; tauto))]

theorem parseVer_render (a b c : Nat) :
    parseVer (tripleChars a b c) = some ⟨a, b, c, []⟩ := by
  unfold parseVer
  rw [show tripleChars a b c = natStr a ++ ('.' :: (natStr b ++ '.' :: natStr c)) from rfl,
    parseNumRun_natStr a ('.' :: (natStr b ++ '.' :: natStr c))
      (by show ('.').isDigit = false; decide)]
  show (match parseNumRun (natStr b ++ '.' :: natStr c) with
    | some (b2, '.' :: r2) =>
      match parseNumRun r2 with
      | some (c2, r3) =>
        match r3 with
        | [] => some (SemVersion.mk a b2 c2 [])
        | ['-', '0'] => some (SemVersion.mk a b2 c2 [0])
        | _ => none
      | none => none
    | _ => none) = some (SemVersion.mk a b c [])
  rw [parseNumRun_natStr b ('.' :: natStr c) (by show ('.').isDigit = false; decide)]
  show (match parseNumRun (natStr c) with
    | some (c2, r3) =>
      match r3 with
      | [] => some (SemVersion.mk a b c2 [])
      | ['-', '0'] => some (SemVersion.mk a b c2 [0])
      | _ => none
    | none => none) = some (SemVersion.mk a b c [])
  rw [show natStr c = natStr c ++ [] from by simp,
    parseNumRun_natStr c [] trivial]

theorem tripleOfChars_render (a b c : Nat) (rest : List Char) (h : headNotDigit rest) :
    tripleOfChars (tripleChars a b c ++ rest) = some (a, b, c) := by
  unfold tripleOfChars
  rw [show tripleChars a b c ++ rest
      = natStr a ++ ('.' :: (natStr b ++ ('.' :: (natStr c ++ rest)))) from by
        simp [tripleChars],
    parseNumRun_natStr a _ (by show ('.').isDigit = false; decide)]
  show (match parseNumRun (natStr b ++ ('.' :: (natStr c ++ rest))) with
    | some (b2, '.' :: r2) =>
      match parseNumRun r2 with
      | some (c2, _) => some (a, b2, c2)
      | none => none
    | _ => none) = some (a, b, c)
  rw [parseNumRun_natStr b _ (by show ('.').isDigit = false; decide)]
  show (match parseNumRun (natStr c ++ rest) with
    | some (c2, _) => some (a, b, c2)
    | none => none) = some (a, b, c)
  rw [parseNumRun_natStr c rest h]

theorem verChars_pre_decomp (v : SemVersion) :
    verChars v = tripleChars v.major v.minor v.patch ++ preChars v.pre
    ∧ headNotDigit (preChars v.pre) := by
  refine ⟨rfl, ?_⟩
  rcases hp : v.pre with _ | ⟨p, ps⟩
  · trivial
  · show ('-').isDigit = false
    decide

theorem tripleOfChars_verChars (v : SemVersion) :
    tripleOfChars (verChars v) = some (v.major, v.minor, v.patch) := by
  obtain ⟨hd, hh⟩ := verChars_pre_decomp v
  rw [hd]
  exact tripleOfChars_render _ _ _ _ hh

theorem minVersionSets_exact (v : SemVersion) (hv : v.pre = []) :
    minVersionSets [[.cmp .eq v]] = some v := by
  unfold minVersionSets
  by_cases h1 : rangeSatisfies ⟨0, 0, 0, []⟩ [[.cmp .eq v]] = true
  · rw [if_pos h1]
    have he : verEq ⟨0, 0, 0, []⟩ v = true := by
      simpa [rangeSatisfies, setSatisfies, compSatisfies] using h1
    rw [verEq_imp _ _ he]
  · rw [if_neg h1]
    have h2 : ¬ rangeSatisfies ⟨0, 0, 0, [0]⟩ [[.cmp .eq v]] = true := by
      simp [rangeSatisfies, setSatisfies, compSatisfies, hv]
    rw [if_neg h2]
    show (match (some v : Option SemVersion) with
      | none => none
      | some m => if rangeSatisfies m [[.cmp .eq v]] = true then some m else none) = some v
    rw [show (match (some v : Option SemVersion) with
      | none => none
      | some m => if rangeSatisfies m [[.cmp .eq v]] = true then some m else none)
      = if rangeSatisfies v [[.cmp .eq v]] = true then some v else none from rfl,
      if_pos (by simp [rangeSatisfies, setSatisfies, compSatisfies, verEq_self, hv])]

theorem renderSets_allAny (sets : List (List Comparator))
    (h : ∀ cs ∈ sets, cs = [Comparator.any]) :
    ∀ ch ∈ renderSets sets, ch = ' ' ∨ ch = '|' := by
  induction sets with
  | nil =>
    intro ch hch
    simp [renderSets, List.intercalate] at hch
  | cons cs tl ih =>
    match tl with
    | [] =>
      intro ch hch
      rw [show renderSets [cs] = renderSet cs from intercalate_single _ _,
        h cs (by simp), renderSet_single] at hch
      simp [compChars] at hch
    | cs2 :: tl2 =>
      intro ch hch
      have e : renderSets (cs :: cs2 :: tl2)
          = renderSet cs ++ ([' ', '|', '|', ' '] ++ renderSets (cs2 :: tl2)) := by
        show List.intercalate _ (renderSet cs :: renderSet cs2 :: tl2.map renderSet) = _
        rw [intercalate_cons_cons]
        simp [renderSets]
      rw [e] at hch
      rcases List.mem_append.mp hch with h1 | h2
      · rw [h cs (by simp), renderSet_single] at h1
        simp [compChars] at h1
      · rcases List.mem_append.mp h2 with h3 | h4
        · simp at h3
          tauto
        · exact ih (fun x hx => h x (by simp [hx])) ch h4

/-! ## Claim C2 -/

/-- C2 amended: an empty or numeric-token-free range expression never
returns a recoverable `InvalidRangeError` value to the caller.  An
expression the `semver` range parser rejects throws (the library's
`TypeError`), which the HTTP handler's `try` catches; an expression
that parses but normalizes to only "any version" comparators (the
empty expression, `*`, and their `||` combinations) reaches
`getMaxVersion` with no concrete numeric token, and the process is
terminated with `process.exit(1)`. -/
theorem c2_invalid_or_no_token_outcomes :
    (∀ s : String, parseRange s = none → parseVersion s = .thrown)
    ∧ ∀ (s : String) (sets : List (List Comparator)), parseRange s = some sets →
        (∀ cs ∈ sets, cs = [Comparator.any]) → parseVersion s = .exited 1 := by
  constructor
  · intro s h
    simp only [parseVersion, h]
  · intro s sets hp hall
    simp only [parseVersion, hp]
    match sets, hall with
    | [], _ =>
      rw [show minVersionSets [] = none from by decide]
    | cs0 :: tl, hall =>
      have h1 : rangeSatisfies ⟨0, 0, 0, []⟩ (cs0 :: tl) = true := by
        unfold rangeSatisfies
        rw [List.any_cons, hall cs0 (by simp)]
        simp [setSatisfies, compSatisfies]
      have hmin : minVersionSets (cs0 :: tl) = some ⟨0, 0, 0, []⟩ := by
        unfold minVersionSets
        rw [if_pos h1]
      rw [hmin]
      have hchars := renderSets_allAny (cs0 :: tl) hall
      have hmax : getMaxVersion (renderSets (cs0 :: tl)) = .exited 1 := by
        unfold getMaxVersion
        rw [stripDash0_no_dash _
            (by intro ch hch; rcases hchars ch hch with rfl | rfl <;> decide),
          show renderSets (cs0 :: tl) = renderSets (cs0 :: tl) ++ [] from by simp,
          scanVersions_sep _ []
            (by intro ch hch
                rcases hchars ch (by simpa using hch) with rfl | rfl <;> decide),
          scanVersions_nil]
        rfl
      rw [hmax]

/-- C2 witness: a syntactically invalid expression throws to the
caller; the empty expression (and `*`) terminate the process. -/
theorem c2_outcomes_witness :
    parseVersion "abc" = .thrown ∧ parseVersion "*" = .exited 1 :=
  ⟨c2_invalid_or_no_token_outcomes.1 "abc" (by decide),
   c2_invalid_or_no_token_outcomes.2 "*" [[Comparator.any]] (by decide) (by decide)⟩

/-! ## Claim C5 -/

/-- C5: every bare exact-version expression `major.minor.patch`
resolves to the range whose minimum and maximum are that very string
with both bounds inclusive. -/
theorem c5_exact_version_roundtrip (a b c : Nat) :
    parseVersion (bareVersionString a b c)
      = .ok ⟨bareVersionString a b c, bareVersionString a b c, true, true⟩ := by
  obtain ⟨x, t0, hx⟩ := natStr_cons a
  have hc0 : tripleChars a b c = x :: (t0 ++ '.' :: (natStr b ++ '.' :: natStr c)) := by
    rw [show tripleChars a b c
      = natStr a ++ ('.' :: (natStr b ++ '.' :: natStr c)) from rfl, hx]
    rfl
  have hdig : x.isDigit = true := by
    have := natStr_allDigits a x (by rw [hx]; simp)
    exact this
  have htok : parseToken (tripleChars a b c)
      = some [Comparator.cmp CompOp.eq (SemVersion.mk a b c [])] := by
    unfold parseToken
    rw [hc0]
    show (if x = '>' then _ else if x = '<' then _ else if x = '=' then _
      else if x = '^' then _ else if x = '~' then _
      else (parseVer (x :: (t0 ++ '.' :: (natStr b ++ '.' :: natStr c)))).map
        (fun v => [Comparator.cmp CompOp.eq v])) = _
    rw [if_neg (ne_of_isDigit hdig (by decide)),
      if_neg (ne_of_isDigit hdig (by decide)),
      if_neg (ne_of_isDigit hdig (by decide)),
      if_neg (ne_of_isDigit hdig (by decide)),
      if_neg (ne_of_isDigit hdig (by decide)),
      ← hc0, parseVer_render]
    rfl
  have hset : parseSet (tripleChars a b c)
      = some [Comparator.cmp CompOp.eq (SemVersion.mk a b c [])] := by
    unfold parseSet
    rw [trimSpaces_no_space _ (tripleChars_ne_space a b c),
      splitWs_no_space _ (tripleChars_ne_space a b c),
      show List.filter (fun t => decide (t ≠ [])) [tripleChars a b c]
        = [tripleChars a b c] from by simp [tripleChars_ne_nil a b c]]
    unfold parseSetTokens
    rw [if_neg (by simp), if_neg (by
      intro he
      injection he with he1 _
      rw [hc0] at he1
      injection he1 with he2 _
      rw [he2] at hdig
      exact Bool.false_ne_true ((by decide : ('*').isDigit = false) ▸ hdig))]
    unfold parseTokens
    rw [htok]
    rfl
  have hparse : parseRange (bareVersionString a b c)
      = some [[Comparator.cmp CompOp.eq (SemVersion.mk a b c [])]] := by
    unfold parseRange
    rw [show (bareVersionString a b c).toList = tripleChars a b c from rfl,
      splitOnBars_no_bar _ (tripleChars_ne_bar a b c)]
    unfold parseSets
    rw [hset]
    rfl
  simp only [parseVersion, hparse]
  rw [minVersionSets_exact (SemVersion.mk a b c []) rfl]
  have hrender : renderSets [[Comparator.cmp CompOp.eq (SemVersion.mk a b c [])]]
      = tripleChars a b c := by
    rw [show renderSets [[Comparator.cmp CompOp.eq (SemVersion.mk a b c [])]]
      = renderSet [Comparator.cmp CompOp.eq (SemVersion.mk a b c [])] from
        intercalate_single _ _, renderSet_single]
    simp [compChars, verChars, opChars, preChars]
  rw [hrender]
  have hscan : scanVersions (tripleChars a b c) = [tripleChars a b c] := by
    conv_lhs => rw [show tripleChars a b c = tripleChars a b c ++ [] from by simp]
    rw [scanVersions_triple a b c [] trivial, scanVersions_nil]
  have hmax : getMaxVersion (tripleChars a b c) = .ok (tripleChars a b c) := by
    unfold getMaxVersion
    rw [stripDash0_no_dash _ (tripleChars_ne_dash a b c), hscan]
    simp
  rw [hmax]
  rw [show (tripleChars a b c).any (fun ch => decide (ch = ' ')) = false from by
    simp only [List.any_eq_false, decide_eq_true_eq]
    exact tripleChars_ne_space a b c]
  show Outcome.ok (VersionRange.mk (verStr (SemVersion.mk a b c []))
      ((tripleChars a b c).asString) true true)
    = Outcome.ok (VersionRange.mk (bareVersionString a b c) (bareVersionString a b c)
      true true)
  rw [show verStr (SemVersion.mk a b c []) = bareVersionString a b c from by
    unfold verStr bareVersionString verChars
    simp [preChars]]
  rfl

/-! ## Claim C7 -/

/-- C7 amended: the claimed invariant `min <= max` fails in general
(see the counterexample), but it does hold whenever the normalized
range is a single conjunctive comparator set whose final comparator is
an upper bound (`<` or `<=`): the returned minimum satisfies the
range, hence lies below the final comparator's version, which is
exactly the last numeric token the maximum is taken from. -/
theorem c7_min_le_max_when_upper_bounded (s : String) (cs : List Comparator)
    (r : VersionRange)
    (hparse : parseRange s = some [cs])
    (hlast : lastIsUpperBound cs)
    (hok : parseVersion s = .ok r) :
    versionStringLe r.min r.max = true := by
  have hwf : ∀ c ∈ cs, comparatorWf c := by
    rcases parseRange_wf s [cs] hparse cs (by simp) with hany | hwf
    · rw [hany] at hlast
      exact hlast.elim
    · exact hwf
  obtain ⟨op, w, hg, hop⟩ : ∃ op w, cs.getLast? = some (.cmp op w)
      ∧ (op = CompOp.lt ∨ op = CompOp.le) := by
    unfold lastIsUpperBound at hlast
    rcases hg : cs.getLast? with _ | cl
    · rw [hg] at hlast
      exact hlast.elim
    · rw [hg] at hlast
      rcases cl with _ | ⟨op, w⟩
      · exact hlast.elim
      · cases op
        · exact hlast.elim
        · exact ⟨_, w, rfl, Or.inl rfl⟩
        · exact ⟨_, w, rfl, Or.inr rfl⟩
        · exact hlast.elim
        · exact hlast.elim
  have hmem : Comparator.cmp op w ∈ cs := List.mem_of_mem_getLast? hg
  simp only [parseVersion, hparse] at hok
  rcases hmin : minVersionSets [cs] with _ | minv
  · rw [hmin] at hok
    cases hok
  rw [hmin] at hok
  have hmax : getMaxVersion (renderSets [cs])
      = .ok (tripleChars w.major w.minor w.patch) := by
    unfold getMaxVersion
    rw [show renderSets [cs] = renderSet cs from intercalate_single _ _,
      scanStripSet cs hwf, List.getLast?_map, hg]
    rfl
  rw [hmax] at hok
  have hminmax : r.min = verStr minv
      ∧ r.max = (tripleChars w.major w.minor w.patch).asString := by
    split_ifs at hok <;>
    · injection hok with h2
      rw [← h2]
      exact ⟨rfl, rfl⟩
  have hsat := minVersionSets_satisfies [cs] minv hmin
  have hsetsat : setSatisfies minv cs = true := by
    simpa [rangeSatisfies] using hsat
  have hcomp : compSatisfies minv (.cmp op w) = true := by
    have hall : cs.all (compSatisfies minv) = true := by
      unfold setSatisfies at hsetsat
      exact Bool.and_elim_left hsetsat
    exact (List.all_eq_true.mp hall) _ hmem
  have hne : verCompare minv w ≠ .gt := by
    rcases hop with rfl | rfl
    · have hlt : verLt minv w = true := hcomp
      have : verCompare minv w = .lt := by
        simpa [verLt] using hlt
      rw [this]
      decide
    · have hle : (!verGt minv w) = true := hcomp
      simpa [verGt] using hle
  have htriple := verCompare_ne_gt_triple minv w hne
  rw [hminmax.1, hminmax.2]
  simp only [versionStringLe]
  rw [show (verStr minv).toList = verChars minv from rfl,
    show ((tripleChars w.major w.minor w.patch).asString).toList
      = tripleChars w.major w.minor w.patch from rfl,
    tripleOfChars_verChars,
    show tripleChars w.major w.minor w.patch
      = tripleChars w.major w.minor w.patch ++ [] from by simp,
    tripleOfChars_render _ _ _ [] trivial]
  simp only [Option.getD_some]
  exact decide_eq_true htriple

/-- C7 witness: the conjunctive range from the specification's test
list ends in an upper bound, and the resolved bounds are ordered. -/
theorem c7_min_le_max_witness : versionStringLe "1.0.0" "2.0.0" = true :=
  c7_min_le_max_when_upper_bounded ">=1.0.0 <2.0.0"
    [Comparator.cmp CompOp.ge ⟨1, 0, 0, []⟩, Comparator.cmp CompOp.lt ⟨2, 0, 0, []⟩]
    ⟨"1.0.0", "2.0.0", true, false⟩ (by decide) trivial (by decide)

end Pkg
